import Mathlib

/-!
Shallow embedding of the core of `nix-cache-mirror` (a mirror for a
Nix-style binary cache) and proofs about it.

Strings from the Rust source are modelled as `List Char` (the inputs in
question are ASCII, so byte indexing and char indexing agree).  Fallible
Rust code is modelled with `Except`; a Rust panic is modelled as the
`Except.error` of a dedicated panic type.  Machine integers (`u64`,
`usize`) are modelled as `Nat`; where the 64-bit range matters (overflow
checks in `str::parse::<u64>`) an explicit bound `2 ^ 64` appears.
-/

deriving instance DecidableEq for Except

namespace NixCacheMirror

/-- Rust strings, modelled as lists of characters. -/
abbrev Str := List Char

/-- Turn a Lean string literal into the `Str` model. -/
def str (s : String) : Str := s.data

/-- ASCII decimal digit test (`u8::is_ascii_digit`). -/
def isAsciiDigit (c : Char) : Bool := 48 ≤ c.toNat && c.toNat ≤ 57

/-- Rust `char::is_ascii_alphanumeric`: `0-9`, `A-Z`, `a-z`. -/
def isAsciiAlphanumeric (c : Char) : Bool :=
  isAsciiDigit c || (65 ≤ c.toNat && c.toNat ≤ 90) || (97 ≤ c.toNat && c.toNat ≤ 122)

/-- Rust `u8::to_ascii_lowercase` on a char: shift `A-Z` by 32. -/
def asciiLower (c : Char) : Char :=
  if 65 ≤ c.toNat && c.toNat ≤ 90 then Char.ofNat (c.toNat + 32) else c

/-- Numeric value of a decimal digit char. -/
def digitVal (c : Char) : Nat := c.toNat - 48

/-- Value of a digit string, most significant digit first. -/
def digitsVal (s : Str) : Nat := s.foldl (fun a c => a * 10 + digitVal c) 0

/-- `u64::MAX + 1`. -/
def u64Lim : Nat := 2 ^ 64

/-- The digit run of `str::parse::<u64>`: one or more ASCII digits,
value below `2 ^ 64`. -/
def parseU64core (t : Str) : Option Nat :=
  if !t.isEmpty && t.all isAsciiDigit then
    if digitsVal t < u64Lim then some (digitsVal t) else none
  else none

/-- Rust `str::parse::<u64>`: an optional leading `+`, then one or more
ASCII digits, value below `2 ^ 64`. -/
def parseU64 (s : Str) : Option Nat :=
  match s with
  | '+' :: rest => parseU64core rest
  | _ => parseU64core s

/-- The ASCII digit char of a value below ten. -/
def digitChar (d : Nat) : Char :=
  match d with
  | 0 => '0' | 1 => '1' | 2 => '2' | 3 => '3' | 4 => '4'
  | 5 => '5' | 6 => '6' | 7 => '7' | 8 => '8' | _ => '9'

/-- Fuel-driven core of the decimal renderer. -/
def natToCharsAux : Nat → Nat → Str
  | 0, _ => []
  | fuel + 1, n =>
    if n < 10 then [digitChar n]
    else natToCharsAux fuel (n / 10) ++ [digitChar (n % 10)]

/-- Decimal rendering of a `Nat` (Rust `Display` for unsigned integers),
most significant digit first. -/
def natToChars (n : Nat) : Str := natToCharsAux (n + 1) n

/-- Index of the first occurrence of char `c` in `s` (Rust `str::find`). -/
def findChar (s : Str) (c : Char) : Option Nat :=
  match s with
  | [] => none
  | x :: rest => if x = c then some 0 else (findChar rest c).map (· + 1)

/-- Whether `p` is a prefix of `s` (Rust `str::starts_with`). -/
def isPre (p s : Str) : Bool :=
  match p, s with
  | [], _ => true
  | _ :: _, [] => false
  | a :: p1, b :: s1 => a = b && isPre p1 s1

/-- Whether `p` is a suffix of `s` (Rust `str::ends_with`). -/
def isSuf (p s : Str) : Bool := isPre p.reverse s.reverse

/-- Index of the first occurrence of the substring `pat` in `s`
(Rust `str::find` with a `&str` pattern). -/
def findSub (s pat : Str) : Option Nat :=
  match s with
  | [] => if pat.isEmpty then some 0 else none
  | _ :: rest => if isPre pat s then some 0 else (findSub rest pat).map (· + 1)

/-- Rust slice `s[a..b]`: panics (`Except.error`) unless `a ≤ b ≤ s.len()`. -/
def rsSlice (s : Str) (a b : Nat) : Except Unit Str :=
  if a ≤ b ∧ b ≤ s.length then .ok ((s.drop a).take (b - a)) else .error ()

/-- Split a string at every occurrence of `c`; always returns at least one
(possibly empty) piece, like Rust `str::split`. -/
def splitAll (c : Char) : Str → List Str
  | [] => [[]]
  | x :: rest =>
    if x = c then [] :: splitAll c rest
    else
      match splitAll c rest with
      | [] => [[x]]
      | h :: t => (x :: h) :: t

/-- Rust `str::split_terminator`: like `split`, but a trailing empty piece
is dropped. -/
def splitTerminator (c : Char) (s : Str) : List Str :=
  let ps := splitAll c s
  if ps.getLast? = some [] then ps.dropLast else ps

/-- Strip one trailing carriage return, if present. -/
def stripCR (s : Str) : Str :=
  match s.getLast? with
  | some '\r' => s.dropLast
  | _ => s

/-- Rust `str::lines` (compiler era of this crate): split on `'\n'`
dropping a final empty piece, then strip one trailing `'\r'` per line. -/
def rustLines (s : Str) : List Str := (splitTerminator '\n' s).map stripCR

/-- Join with a single space (inverse direction of `split_terminator(" ")`
for well-formed reference lists). -/
def joinSpace (ls : List Str) : Str :=
  match ls with
  | [] => []
  | [x] => x
  | x :: rest => x ++ ' ' :: joinSpace rest

/-! ## Store paths (`database/model.rs`) -/

/-- `/nix/store` - what `StorePath::root()` returns (the store prefix
without its trailing slash). -/
def storeRootStr : Str := str "/nix/store"

/-- Alphabet of a store-path hash: `[a-z0-9]` minus `e`, `o`, `u`, `t`
(`is_valid_hash` in `StorePath::try_from`). -/
def is_valid_hash (s : Str) : Bool :=
  s.all fun c =>
    if c = 'e' ∨ c = 'o' ∨ c = 'u' ∨ c = 't' then false
    else (97 ≤ c.toNat && c.toNat ≤ 122) || isAsciiDigit c

/-- Alphabet of a store-path name: ASCII alphanumeric or one of `+-._?=`
(`is_valid_name` in `StorePath::try_from`). -/
def is_valid_name (s : Str) : Bool :=
  s.all fun c => isAsciiAlphanumeric c || c ∈ (str "+-._?=")

/-- A validated store path; the underlying string is kept verbatim. -/
structure StorePath where
  path : Str
deriving DecidableEq, Repr

/-- `StorePath::try_from(String)`.  Checks, in source order: length in
`[45, 212]`, ASCII, byte 43 is `-`, hash alphabet on bytes `11..43`, name
alphabet on bytes `44..`.  (The `/nix/store/` prefix itself is never
compared.) -/
def StorePath.try_from (path : Str) : Except String StorePath :=
  if ¬ (45 ≤ path.length ∧ path.length ≤ 212) then
    .error "Length is not in range"
  else if ¬ (path.all fun c => c.toNat < 128) then
    .error "Not ascii string"
  else if ¬ (path.get? 43 = some '-') then
    .error "Hash seperator not found"
  else if ¬ is_valid_hash ((path.drop 11).take 32) then
    .error "Invalid hash"
  else if ¬ is_valid_name (path.drop 44) then
    .error "Invalid name"
  else
    .ok ⟨path⟩

/-- `StorePath::root()`. -/
def StorePath.root (_ : StorePath) : Str := storeRootStr

/-- `StorePath::hash_str()`: bytes `11..43` of the path. -/
def StorePath.hash_str (p : StorePath) : Str := (p.path.drop 11).take 32

/-- `StorePath::hash()`: the hash as a key (modelled as its string). -/
def StorePath.hash (p : StorePath) : Str := p.hash_str

/-- `StorePath::name()`: bytes `44..` of the path. -/
def StorePath.name (p : StorePath) : Str := p.path.drop 44

/-! ## Nar metadata and the narinfo codec (`database/model.rs`) -/

/-- `NarMeta`: the metadata block of one nar artifact.  Sizes are `u64`
in the source, modelled as `Nat`. -/
structure NarMeta where
  url : Str
  compression : Option Str
  file_hash : Option Str
  file_size : Option Nat
  nar_hash : Str
  nar_size : Nat
  deriver : Option Str
  sig : Option Str
  ca : Option Str
deriving DecidableEq, Repr

/-- `Nar`: a store path, its metadata, and the verbatim space-separated
references string. -/
structure Nar where
  store_path : StorePath
  meta : NarMeta
  references : Str
deriving DecidableEq, Repr

/-- One `Key: value\n` narinfo line. -/
def infoLine (k v : Str) : Str := k ++ ':' :: ' ' :: v ++ ['\n']

/-- An optional narinfo line: nothing when the field is absent. -/
def infoLineOpt (k : Str) (v : Option Str) : Str :=
  match v with
  | none => []
  | some s => infoLine k s

/-- The narinfo lines emitted by `Nar::format_nar_info`, in source
order. -/
def Nar.infoLines (n : Nar) : Str :=
  infoLine (str "StorePath") n.store_path.path ++
  (infoLine (str "URL") n.meta.url ++
  (infoLineOpt (str "Compression") n.meta.compression ++
  (infoLineOpt (str "FileHash") n.meta.file_hash ++
  (infoLineOpt (str "FileSize") (n.meta.file_size.map natToChars) ++
  (infoLine (str "NarHash") n.meta.nar_hash ++
  (infoLine (str "NarSize") (natToChars n.meta.nar_size) ++
  (infoLine (str "References") n.references ++
  (infoLineOpt (str "Sig") n.meta.sig ++
  (infoLineOpt (str "Deriver") n.meta.deriver ++
  infoLineOpt (str "CA") n.meta.ca)))))))))

/-- `Nar::format_nar_info`: render the narinfo text. -/
def Nar.format_nar_info (n : Nar) : Str := n.infoLines

/-- Parser state of `Nar::parse_nar_info_inner`: one `Option` per
field, all starting at `none` (`Default::default()`). -/
structure InfoAcc where
  store_path : Option StorePath := none
  url : Option Str := none
  compression : Option Str := none
  file_hash : Option Str := none
  file_size : Option Nat := none
  nar_hash : Option Str := none
  nar_size : Option Nat := none
  references : Option Str := none
  deriver : Option Str := none
  sig : Option Str := none
  ca : Option Str := none
deriving DecidableEq

/-- Handle one narinfo line: skip empty lines, split at the first
`": "`, dispatch on the key (unknown keys are an error). -/
def parseInfoLine (acc : InfoAcc) (line : Str) : Except String InfoAcc :=
  if line.isEmpty then .ok acc
  else
    match findSub line (str ": ") with
    | none => .error "Missing colon"
    | some sep =>
      let k := line.take sep
      let v := line.drop (sep + 2)
      if k = str "StorePath" then
        match StorePath.try_from v with
        | .error _ => .error "Invalid StorePath"
        | .ok p => .ok { acc with store_path := some p }
      else if k = str "URL" then .ok { acc with url := some v }
      else if k = str "Compression" then .ok { acc with compression := some v }
      else if k = str "FileHash" then .ok { acc with file_hash := some v }
      else if k = str "FileSize" then
        match parseU64 v with
        | none => .error "Invalid FileSize"
        | some x => .ok { acc with file_size := some x }
      else if k = str "NarHash" then .ok { acc with nar_hash := some v }
      else if k = str "NarSize" then
        match parseU64 v with
        | none => .error "Invalid NarSize"
        | some x => .ok { acc with nar_size := some x }
      else if k = str "References" then .ok { acc with references := some v }
      else if k = str "Deriver" then .ok { acc with deriver := some v }
      else if k = str "Sig" then .ok { acc with sig := some v }
      else if k = str "CA" then .ok { acc with ca := some v }
      else .error "Unknown field"

/-- Fold `parseInfoLine` over a list of lines. -/
def parseInfoLines (acc : InfoAcc) : List Str → Except String InfoAcc
  | [] => .ok acc
  | l :: rest =>
    match parseInfoLine acc l with
    | .error e => .error e
    | .ok acc1 => parseInfoLines acc1 rest

/-- Assemble the final `Nar` from the parser state, requiring the five
mandatory fields. -/
def InfoAcc.finish (acc : InfoAcc) : Except String Nar :=
  match acc.store_path with
  | none => .error "Missing StorePath"
  | some sp =>
    match acc.url with
    | none => .error "Missing URL"
    | some url =>
      match acc.nar_hash with
      | none => .error "Missing NarHash"
      | some nar_hash =>
        match acc.nar_size with
        | none => .error "Missing NarSize"
        | some nar_size =>
          match acc.references with
          | none => .error "Missing References"
          | some references =>
            .ok { store_path := sp
                  meta := { url, compression := acc.compression
                            file_hash := acc.file_hash, file_size := acc.file_size
                            nar_hash, nar_size
                            deriver := acc.deriver, sig := acc.sig, ca := acc.ca }
                  references }

/-- `Nar::parse_nar_info`: parse a narinfo document. -/
def Nar.parse_nar_info (info : Str) : Except String Nar :=
  match parseInfoLines {} (rustLines info) with
  | .error e => .error e
  | .ok acc => acc.finish

/-- `str::split_terminator(" ")` over the references string: the
basenames, nothing for the empty string. -/
def Nar.ref_basenames (n : Nar) : List Str :=
  splitTerminator ' ' n.references

/-- Modelled from the spec: `Nar::ref_hashes` is called by the catalog
and the fetcher but its body is not among the given sources; per the
spec it yields the store-path hash of each basename in `references`,
propagating parse failures.  It is `ref_paths` (which parses
`{root}/{basename}` as a `StorePath`) followed by the hash
projection. -/
def Nar.ref_hashes (n : Nar) : List (Except String Str) :=
  n.ref_basenames.map fun b =>
    (StorePath.try_from (storeRootStr ++ '/' :: b)).map (·.hash_str)

/-! ## Channel metadata (`update/mod.rs`) -/

/-- `get_git_revision`: the fetched body must be 40 ASCII alphanumeric
characters; it is then lowercased in place and returned. -/
def get_git_revision (body : Except String Str) : Except String Str :=
  match body with
  | .error e => .error e
  | .ok rev =>
    if rev.length = 40 ∧ rev.all isAsciiAlphanumeric then
      .ok (rev.map asciiLower)
    else
      .error "Invalid git revision"

/-! ## The catalog (`database/mod.rs`)

The persistent store is a SQLite database.  The schema file is not among
the given sources; the unique key used by `ON CONFLICT DO NOTHING` is
modelled from the spec (see `insertOneNar`). -/

/-- `NarStatus`. -/
inductive NarStatus where
  | Pending
  | Available
  | Trashed
deriving DecidableEq, Repr

/-- `RootStatus`. -/
inductive RootStatus where
  | Pending
  | Downloading
  | Available
deriving DecidableEq, Repr

/-- One row of the `nar` table. -/
structure NarRow where
  id : Nat
  store_root : Str
  hash : Str
  name : Str
  url : Str
  compression : Option Str
  file_hash : Option Str
  file_size : Option Nat
  nar_hash : Str
  nar_size : Nat
  deriver : Option Str
  sig : Option Str
  ca : Option Str
  status : NarStatus
deriving DecidableEq, Repr

/-- The `Root` model struct. -/
structure Root where
  channel_url : Option Str
  cache_url : Option Str
  git_revision : Option Str
  fetch_time : Option Str
  status : RootStatus
deriving DecidableEq, Repr

/-- One row of the `root` table. -/
structure RootRow where
  id : Nat
  root : Root
deriving DecidableEq, Repr

/-- The database state: the `nar`, `nar_ref`, `root` and `root_nar`
tables, plus rowid counters. -/
structure Catalog where
  nextNarId : Nat
  nars : List NarRow
  nar_refs : List (Nat × Nat)
  nextRootId : Nat
  roots : List RootRow
  root_nars : List (Nat × Nat)
deriving DecidableEq, Repr

/-- The row built for a nar by `insert_or_ignore_nars`. -/
def narRowOf (id : Nat) (status : NarStatus) (n : Nar) : NarRow :=
  { id
    store_root := n.store_path.root
    hash := n.store_path.hash_str
    name := n.store_path.name
    url := n.meta.url
    compression := n.meta.compression
    file_hash := n.meta.file_hash
    file_size := n.meta.file_size
    nar_hash := n.meta.nar_hash
    nar_size := n.meta.nar_size
    deriver := n.meta.deriver
    sig := n.meta.sig
    ca := n.meta.ca
    status }

/-- The reference edges created for a newly inserted row: for each
basename hash, one edge per `nar` row with that hash (the SQL
`INSERT INTO nar_ref SELECT :nar_id, id FROM nar WHERE hash = :hash`;
the just-inserted row is visible, so self references work).  An
unparseable basename is the `expect` panic in the source. -/
def refEdges (rows : List NarRow) (narId : Nat) :
    List (Except String Str) → Except Unit (List (Nat × Nat))
  | [] => .ok []
  | .error _ :: _ => .error ()
  | .ok h :: rest =>
    match refEdges rows narId rest with
    | .error e => .error e
    | .ok es => .ok (((rows.filter (fun r => r.hash = h)).map fun r => (narId, r.id)) ++ es)

/-- Insert one nar inside the transaction of `insert_or_ignore_nars`.
Modelled from the spec: the unique key `(store_root, hash, name)` lives
in the schema file, which is not among the given sources; on conflict
the insert is skipped (`ON CONFLICT DO NOTHING`, 0 rows changed) and no
edges are created. -/
def insertOneNar (status : NarStatus) (cat : Catalog) (n : Nar) : Except Unit Catalog :=
  if cat.nars.any fun r =>
      r.store_root = n.store_path.root ∧ r.hash = n.store_path.hash_str ∧
        r.name = n.store_path.name then
    .ok cat
  else
    match refEdges (cat.nars ++ [narRowOf cat.nextNarId status n]) cat.nextNarId
        n.ref_hashes with
    | .error e => .error e
    | .ok es =>
      .ok { cat with
            nextNarId := cat.nextNarId + 1
            nars := cat.nars ++ [narRowOf cat.nextNarId status n]
            nar_refs := cat.nar_refs ++ es }

/-- `Database::insert_or_ignore_nars(status, nars)`: one immediate
transaction inserting each nar in turn; a panic rolls the whole
transaction back (modelled as `Except.error` without a state). -/
def insert_or_ignore_nars (status : NarStatus) (cat : Catalog) :
    List Nar → Except Unit Catalog
  | [] => .ok cat
  | n :: rest =>
    match insertOneNar status cat n with
    | .error e => .error e
    | .ok cat1 => insert_or_ignore_nars status cat1 rest

/-- `Database::select_nar_id_by_hash`: the id of the first row with the
given hash whose status is not `Trashed`. -/
def select_nar_id_by_hash (cat : Catalog) (hash : Str) : Option Nat :=
  (cat.nars.find? fun r => r.hash = hash ∧ r.status ≠ .Trashed).map (·.id)

/-- The references string rebuilt by `select_all_nar`'s subquery:
`GROUP_CONCAT(ref.hash || '-' || ref.name, ' ')` over the row's edges
(joined against the `nar` table), `''` when there are none. -/
def refString (cat : Catalog) (narId : Nat) : Str :=
  joinSpace (((cat.nar_refs.filter fun e => e.1 = narId).filterMap fun e =>
    (cat.nars.find? fun r => r.id = e.2).map fun r => r.hash ++ '-' :: r.name))

/-- Rebuild the `Nar` of one catalog row, as `select_all_nar` does:
the store path is re-parsed from `{store_root}/{hash}-{name}`. -/
def rowToNar (cat : Catalog) (r : NarRow) : Except String (Nat × Nar) :=
  match StorePath.try_from (r.store_root ++ '/' :: r.hash ++ '-' :: r.name) with
  | .error e => .error e
  | .ok sp =>
    .ok (r.id,
      { store_path := sp
        meta := { url := r.url, compression := r.compression
                  file_hash := r.file_hash, file_size := r.file_size
                  nar_hash := r.nar_hash, nar_size := r.nar_size
                  deriver := r.deriver, sig := r.sig, ca := r.ca }
        references := refString cat r.id })

/-- Collect `rowToNar` over a list of rows, stopping at the first
error (the `collect::<Result<_>>` in the visitor stream). -/
def rowsToNars (cat : Catalog) : List NarRow → Except String (List (Nat × Nar))
  | [] => .ok []
  | r :: rest =>
    match rowToNar cat r with
    | .error e => .error e
    | .ok p =>
      match rowsToNars cat rest with
      | .error e => .error e
      | .ok ps => .ok (p :: ps)

/-- `Database::select_all_nar(status, f)`: every row in the given
status, with its rebuilt references string, in catalog order. -/
def select_all_nar (cat : Catalog) (status : NarStatus) :
    Except String (List (Nat × Nar)) :=
  rowsToNars cat (cat.nars.filter fun r => r.status = status)

/-- `Database::insert_root(root, root_hashes)`: insert the root row,
then one pinning edge per hash for every `nar` row with that hash
(hashes that match no row are silently skipped). -/
def insert_root (cat : Catalog) (root : Root) (root_hashes : List Str) :
    Nat × Catalog :=
  let id := cat.nextRootId
  let edges := root_hashes.flatMap fun h =>
    (cat.nars.filter fun r => r.hash = h).map fun r => (id, r.id)
  (id, { cat with
         nextRootId := id + 1
         roots := cat.roots ++ [{ id, root }]
         root_nars := cat.root_nars ++ edges })

/-! ## The narinfo in-memory index (`server/nar_info_cache.rs`) -/

/-- `CacheItem`: the slice of `buf` holding one rendered narinfo, plus
the payload size served for ranges. -/
structure CacheItem where
  start : Nat
  stop : Nat
  file_size : Nat
deriving DecidableEq, Repr

/-- `NarInfoCache`: one flat text buffer plus a hash-keyed map into it. -/
structure NarInfoCache where
  buf : Str
  cache : List (Str × CacheItem)
deriving DecidableEq, Repr

/-- `HashMap::insert`: replace any existing binding of the key. -/
def mapInsert (m : List (Str × CacheItem)) (k : Str) (v : CacheItem) :
    List (Str × CacheItem) :=
  (k, v) :: m.filter fun p => p.1 ≠ k

/-- The url rewrite applied before rendering for serving:
`nar.meta.url = format!("nar/{}", nar.store_path.hash_str())`. -/
def rewriteUrl (n : Nar) : Nar :=
  { n with meta := { n.meta with url := str "nar/" ++ n.store_path.hash_str } }

/-- The body of the `select_all_nar` visitor in `NarInfoCache::init`:
rewrite the url to `nar/<hash>`, append the rendered text to `buf`,
record the slice and the file size (`file_size` falling back to
`nar_size`). -/
def cacheStep (st : NarInfoCache) (n : Nar) : NarInfoCache :=
  let n1 := rewriteUrl n
  let start := st.buf.length
  let text := n1.format_nar_info
  { buf := st.buf ++ text
    cache := mapInsert st.cache n.store_path.hash
      { start, stop := start + text.length, file_size := n.meta.file_size.getD n.meta.nar_size } }

/-- `NarInfoCache::init(db)`: fold the visitor over every `Available`
artifact. -/
def NarInfoCache.init (cat : Catalog) : Except String NarInfoCache :=
  match select_all_nar cat .Available with
  | .error e => .error e
  | .ok rows => .ok (rows.foldl (fun st p => cacheStep st p.2) ⟨[], []⟩)

/-- `NarInfoCache::get_info`: `none` unless the key is exactly 32 bytes;
otherwise look the hash up and slice `buf`. -/
def NarInfoCache.get_info (c : NarInfoCache) (hash : Str) : Option Str :=
  if hash.length ≠ 32 then none
  else
    ((c.cache.find? fun p => p.1 = hash).map fun p =>
      (c.buf.drop p.2.start).take (p.2.stop - p.2.start))

/-- `NarInfoCache::get_file_size`. -/
def NarInfoCache.get_file_size (c : NarInfoCache) (hash : Str) : Option Nat :=
  if hash.length ≠ 32 then none
  else (c.cache.find? fun p => p.1 = hash).map fun p => p.2.file_size

/-! ## The HTTP server (`server/mod.rs`) -/

/-- `http::HeaderValue::to_str` succeeds only on visible ASCII (32-126)
plus tab. -/
def isHeaderChar (c : Char) : Bool :=
  (32 ≤ c.toNat && c.toNat < 127) || c = '\t'

/-- `parse_content_range(req, file_size)`.  The input is the request's
`Range` header (absent = `none`); the result is the half-open byte
window, `none` when the header is missing, malformed or out of range,
and `Except.error` for the slice panic `s[sep+1..end]` (the comma
position is found in the substring after `-` but used as an index into
the whole string). -/
def parse_content_range : Option Str → Nat → Except Unit (Option (Nat × Nat))
  | none, _ => .ok none
  | some h, file_size =>
    if ¬ h.all isHeaderChar then .ok none
    else if ¬ isPre (str "bytes=") h then .ok none
    else
      let s := h.drop 6
      match findChar s '-' with
      | none => .ok none
      | some sep =>
        let e := match findChar (s.drop (sep + 1)) ',' with
                 | some p => p
                 | none => s.length
        match (parseU64 (s.take sep)).bind (fun l => if l = 0 then none else some (l - 1)) with
        | none => .ok none
        | some lhs =>
          if sep + 1 = s.length then
            if lhs < file_size then .ok (some (lhs, file_size)) else .ok none
          else
            match rsSlice s (sep + 1) e with
            | .error u => .error u
            | .ok sub =>
              match parseU64 sub with
              | none => .ok none
              | some rhs =>
                if lhs ≤ rhs ∧ rhs < file_size then .ok (some (lhs, rhs)) else .ok none

/-- The `Content-Range` header value `bytes {start+1}-{end}/{file_size}`
set by `serve_nar_file` when a range was accepted. -/
def contentRangeValue (start stop file_size : Nat) : Str :=
  str "bytes " ++ natToChars (start + 1) ++ '-' :: natToChars stop ++
    '/' :: natToChars file_size

/-- The headers and byte window of a `/nar/<hash>` response (the body
stream is driven by `window`). -/
structure NarFileResp where
  status : Nat
  content_range : Option Str
  content_length : Nat
  window : Nat × Nat
deriving DecidableEq, Repr

/-- The range logic of `serve_nar_file`, after the hash was found with
size `file_size`: no accepted range serves `[0, file_size)` with status
200; an accepted range `(a, b)` serves `[a, b)` with status 206 and a
`Content-Range` header; `Content-Length` is always `end - start`. -/
def serve_nar_file (file_size : Nat) (header : Option Str) :
    Except Unit NarFileResp :=
  match parse_content_range header file_size with
  | .error u => .error u
  | .ok none => .ok { status := 200, content_range := none
                      content_length := file_size, window := (0, file_size) }
  | .ok (some (a, b)) =>
    .ok { status := 206
          content_range := some (contentRangeValue a b file_size)
          content_length := b - a, window := (a, b) }

/-- `hyper::Method`, restricted to the named methods. -/
inductive Method where
  | GET | HEAD | POST | PUT | DELETE | OPTIONS | PATCH | TRACE | CONNECT
deriving DecidableEq, Repr

/-- The server state: the narinfo index and the precomputed
`nix-cache-info` body. -/
structure ServerData where
  nar_info_cache : NarInfoCache
  nix_cache_info : Str
deriving Repr

/-- An HTTP response, as far as the routing logic determines it. -/
inductive Response where
  | simple (status : Nat) (body : Str)
  | okBody (body : Str)
  | narInfoHit (body : Str)
  | narFile (r : NarFileResp) (head_only : Bool)
deriving DecidableEq, Repr

/-- The status code of a `Response`. -/
def Response.statusCode : Response → Nat
  | .simple s _ => s
  | .okBody _ => 200
  | .narInfoHit _ => 200
  | .narFile r _ => r.status

/-- `serve_nar_info(data, req, hash)`. -/
def serveNarInfo (data : ServerData) (hash : Str) : Response :=
  match data.nar_info_cache.get_info hash with
  | some info => .narInfoHit info
  | none => .simple 404 (str "Not found")

/-- `serve_nar_file(data, req, hash, head_only)` including the index
lookup and the 404 miss. -/
def serveNarFileRoute (data : ServerData) (hash : Str) (range_header : Option Str)
    (head_only : Bool) : Except Unit Response :=
  match data.nar_info_cache.get_file_size hash with
  | none => .ok (.simple 404 (str "Not found"))
  | some file_size =>
    match serve_nar_file file_size range_header with
    | .error u => .error u
    | .ok r => .ok (.narFile r head_only)

/-- `serve(data, req)`: the router.  `path` is the request URI path and
`range_header` its `Range` header.  Branches in source order: `/`,
`/nix-cache-info`, `/nar/<hash>`, `/<hash>.narinfo` (no further `/` in
the remainder), anything else 404.  The guard `!s[1..].contains('/')`
slices the path, which panics on the empty path. -/
def serve (data : ServerData) (method : Method) (path : Str)
    (range_header : Option Str) : Except Unit Response :=
  if path = str "/" then .ok (.simple 200 (str "It works"))
  else if path = str "/nix-cache-info" then
    match method with
    | .GET => .ok (.okBody data.nix_cache_info)
    | _ => .ok (.simple 405 [])
  else if isPre (str "/nar/") path then
    match method with
    | .GET => serveNarFileRoute data (path.drop 5) range_header false
    | .HEAD => serveNarFileRoute data (path.drop 5) range_header true
    | _ => .ok (.simple 405 [])
  else
    match rsSlice path 1 path.length with
    | .error u => .error u
    | .ok tail =>
      if ¬ tail.contains '/' ∧ isSuf (str ".narinfo") path then
        match method with
        | .GET =>
          match rsSlice path 1 (path.length - 8) with
          | .error u => .error u
          | .ok hash => .ok (serveNarInfo data hash)
        | _ => .ok (.simple 405 [])
      else
        .ok (.simple 404 (str "Not found"))

/-! ## The dependency graph (`update/fetch_meta_rec.rs`)

`DepGraph` holds a `HashMap<V, Vec<V>>` of out-edges and a
`HashMap<V, usize>` of in-degrees; both are modelled as association
lists (one entry per key, in insertion order).  Keys are store-path
hashes, modelled as `Str`. -/

/-- Association-list lookup (first matching key). -/
def lookupA {β : Type} (m : List (Str × β)) (k : Str) : Option β :=
  (m.find? fun p => p.1 = k).map (·.2)

/-- Association-list update of one key's value. -/
def setA {β : Type} (m : List (Str × β)) (k : Str) (v : β) : List (Str × β) :=
  m.map fun p => if p.1 = k then (k, v) else p

/-- The keys of an association list. -/
def keysA {β : Type} (m : List (Str × β)) : List Str := m.map (·.1)

/-- `DepGraph`. -/
structure DepGraph where
  edges : List (Str × List Str)
  inds : List (Str × Nat)
deriving DecidableEq, Repr

/-- The empty graph (`Default`). -/
def DepGraph.empty : DepGraph := ⟨[], []⟩

/-- `DepGraph::add_node`: insert with in-degree 0; a duplicate node is
the `assert!` panic. -/
def DepGraph.add_node (g : DepGraph) (a : Str) : Except Unit DepGraph :=
  if (lookupA g.edges a).isSome then .error ()
  else .ok ⟨g.edges ++ [(a, [])], g.inds ++ [(a, 0)]⟩

/-- `DepGraph::add_dep(a, b)`: append `b` to `a`'s out-list and bump
`b`'s in-degree; a missing endpoint is the `expect` panic. -/
def DepGraph.add_dep (g : DepGraph) (a b : Str) : Except Unit DepGraph :=
  match lookupA g.edges a, lookupA g.inds b with
  | some l, some n => .ok ⟨setA g.edges a (l ++ [b]), setA g.inds b (n + 1)⟩
  | _, _ => .error ()

/-- One pass over the out-neighbours of the node being processed in
`topo_sort`: decrement each in-degree (`usize` decrement; under the
graph invariants it never reaches below zero) and push nodes whose
in-degree reaches 0. -/
def processNb (inds : List (Str × Nat)) (q : List Str) :
    List Str → Except Unit (List (Str × Nat) × List Str)
  | [] => .ok (inds, q)
  | b :: rest =>
    match lookupA inds b with
    | none => .error ()
    | some p0 =>
      let p := p0 - 1
      processNb (setA inds b p) (if p = 0 then q ++ [b] else q) rest

/-- The `while lpos != q.len()` loop of `topo_sort`, with fuel (the
source loop always terminates; `topo_sort` passes enough fuel). -/
def topoLoop (E : List (Str × List Str)) :
    List (Str × Nat) → List Str → Nat → Nat → Except Unit (List Str)
  | _, q, _, 0 => .ok q
  | inds, q, lpos, fuel + 1 =>
    if h : lpos < q.length then
      match lookupA E (q.get ⟨lpos, h⟩) with
      | none => .error ()
      | some ns =>
        match processNb inds q ns with
        | .error u => .error u
        | .ok (inds1, q1) => topoLoop E inds1 q1 (lpos + 1) fuel
    else .ok q

/-- `DepGraph::topo_sort`: Kahn's algorithm; start from the zero
in-degree nodes and grow the queue in place. -/
def DepGraph.topo_sort (g : DepGraph) : Except Unit (List Str) :=
  topoLoop g.edges g.inds ((g.inds.filter fun p => p.2 = 0).map (·.1)) 0
    (g.inds.length + (g.inds.map (·.2)).sum)

/-- Whether the graph records an edge `a → b`. -/
def edgeB (E : List (Str × List Str)) (a b : Str) : Bool :=
  match lookupA E a with
  | some l => l.contains b
  | none => false

/-- Total number of in-edges of `b` recorded in the out-edge map. -/
def countEdges (E : List (Str × List Str)) (b : Str) : Nat :=
  (E.map fun p => p.2.count b).sum

/-- Well-formedness of a `DepGraph`, as maintained by `add_node` /
`add_dep`: node keys are unique and shared by both maps, every edge
target is a node, and each stored in-degree is the exact number of
in-edges. -/
def DepGraph.WF (g : DepGraph) : Prop :=
  (keysA g.edges).Nodup ∧
  keysA g.inds = keysA g.edges ∧
  (∀ p ∈ g.edges, ∀ b ∈ p.2, b ∈ keysA g.inds) ∧
  (∀ p ∈ g.inds, p.2 = countEdges g.edges p.1)

instance (g : DepGraph) : Decidable g.WF := by
  unfold DepGraph.WF; infer_instance

/-! ## The recursive metadata fetcher (`update/fetch_meta_rec.rs`)

The fetch phase is concurrent in the source; here it is sequentialized:
pending hashes are kept in the `todo` stack and processed one at a
time, each fetch answered by an oracle mapping a hash to the upstream
narinfo body (or a failure).  Only the commit phase (`save_all`)
writes to the catalog. -/

/-- `NarState`. -/
inductive NarState where
  | Fetching
  | Fetched (nar : Nar)
  | Inserted (id : Nat)
deriving DecidableEq, Repr

/-- `NarState::as_inserted`. -/
def NarState.as_inserted : NarState → Option Nat
  | .Inserted id => some id
  | _ => none

/-- Whether a state is `Fetched`. -/
def NarState.isFetched : NarState → Bool
  | .Fetched _ => true
  | _ => false

/-- The fetcher state that the claims are about: the per-hash state
map, the dependency graph, the todo stack, and the progress
counters. -/
structure FetchSt where
  nars : List (Str × NarState)
  dep_graph : DepGraph
  todo : List Str
  total : Nat
  finished : Nat
deriving Repr

/-- `Fetcher::check_add_todo(hash)`: if the hash is new, add it to the
graph; if it is already in the catalog record `Inserted`, otherwise
record `Fetching`, bump `total` and enqueue it. -/
def check_add_todo (cat : Catalog) (st : FetchSt) (hash : Str) :
    Except Unit FetchSt :=
  if (lookupA st.nars hash).isSome then .ok st
  else
    match st.dep_graph.add_node hash with
    | .error u => .error u
    | .ok g =>
      match select_nar_id_by_hash cat hash with
      | some id =>
        .ok { st with dep_graph := g, nars := st.nars ++ [(hash, .Inserted id)] }
      | none =>
        .ok { st with
              dep_graph := g
              nars := st.nars ++ [(hash, .Fetching)]
              total := st.total + 1
              todo := st.todo ++ [hash] }

/-- The reference loop of `Fetcher::parse_one`: for each parsed
reference hash other than the current one, `check_add_todo` then
`add_dep`. -/
def addRefs (cat : Catalog) (cur : Str) (st : FetchSt) :
    List (Except String Str) → Except Unit FetchSt
  | [] => .ok st
  | .error _ :: _ => .error ()
  | .ok h :: rest =>
    if h = cur then addRefs cat cur st rest
    else
      match check_add_todo cat st h with
      | .error u => .error u
      | .ok st1 =>
        match st1.dep_graph.add_dep cur h with
        | .error u => .error u
        | .ok g => addRefs cat cur { st1 with dep_graph := g } rest

/-- `Fetcher::parse_one(ret)`: parse the fetched body, add the
reference edges, and mark the hash `Fetched`. -/
def parse_one (cat : Catalog) (st : FetchSt) (ret : Except String Str) :
    Except Unit FetchSt :=
  match ret with
  | .error _ => .error ()
  | .ok body =>
    match Nar.parse_nar_info body with
    | .error _ => .error ()
    | .ok nar =>
      let cur := nar.store_path.hash
      match addRefs cat cur st nar.ref_hashes with
      | .error u => .error u
      | .ok st1 =>
        if (lookupA st1.nars cur).isSome then
          .ok { st1 with
                nars := setA st1.nars cur (.Fetched nar)
                finished := st1.finished + 1 }
        else .error ()

/-- The drain loop of `Fetcher::fetch_all`, sequentialized: pop the
most recently queued hash (`Vec::pop`), fetch its narinfo from the
oracle, `parse_one` it; running out of fuel models a stalled batch. -/
def fetchLoop (oracle : Str → Except String Str) (cat : Catalog) :
    FetchSt → Nat → Except Unit FetchSt
  | _, 0 => .error ()
  | st, fuel + 1 =>
    match st.todo.getLast? with
    | none => .ok st
    | some hash =>
      match parse_one cat { st with todo := st.todo.dropLast } (oracle hash) with
      | .error u => .error u
      | .ok st1 => fetchLoop oracle cat st1 fuel

/-- `Fetcher::fetch_all`: seed the todo set from the root hashes, drain
it, then require `total == finished` (the `ensure!`). -/
def fetch_all (oracle : Str → Except String Str) (cat : Catalog)
    (root_hashes : List Str) (fuel : Nat) : Except Unit FetchSt :=
  match root_hashes.foldlM (check_add_todo cat) (⟨[], .empty, [], 0, 0⟩ : FetchSt) with
  | .error u => .error u
  | .ok st =>
    match fetchLoop oracle cat st fuel with
    | .error u => .error u
    | .ok st1 => if st1.total = st1.finished then .ok st1 else .error ()

/-- Modelled from the spec: `Database::insert_or_ignore_nar` (the
one-nar variant called by `save_all` with precomputed reference ids) is
not among the given sources.  Per the spec's catalog description it
inserts the row unless the unique key conflicts, records one reference
edge per given id plus a self edge when requested, and returns the
row's id (the existing one on conflict). -/
def insert_or_ignore_nar (cat : Catalog) (status : NarStatus) (sp : StorePath)
    (meta : NarMeta) (self_ref : Bool) (ref_ids : List Nat) : Nat × Catalog :=
  match cat.nars.find? fun r =>
      r.store_root = sp.root ∧ r.hash = sp.hash_str ∧ r.name = sp.name with
  | some r => (r.id, cat)
  | none =>
    let id := cat.nextNarId
    let row := narRowOf id status { store_path := sp, meta, references := [] }
    let es := (if self_ref then [(id, id)] else []) ++ ref_ids.map ((id, ·))
    (id, { cat with
           nextNarId := id + 1
           nars := cat.nars ++ [row]
           nar_refs := cat.nar_refs ++ es })

/-- The per-hash body of `Fetcher::save_all`'s commit loop: skip
`Inserted` hashes, commit `Fetched` ones (resolving every non-self
reference to its already-assigned id), and fail on anything still
`Fetching` (the `unreachable!`) or unresolved (the `unwrap`s). -/
def saveStep (acc : List (Str × NarState) × Catalog) (hash : Str) :
    Except Unit (List (Str × NarState) × Catalog) :=
  let (nars, cat) := acc
  match lookupA nars hash with
  | none => .error ()
  | some (.Inserted _) => .ok acc
  | some .Fetching => .error ()
  | some (.Fetched nar) =>
    match nar.ref_hashes.mapM id with
    | .error _ => .error ()
    | .ok hs =>
      let self_ref := hs.any (· = hash)
      match (hs.filter (· ≠ hash)).mapM fun h =>
          (lookupA nars h).bind NarState.as_inserted with
      | none => .error ()
      | some ref_ids =>
        let (id, cat1) :=
          insert_or_ignore_nar cat .Pending nar.store_path nar.meta self_ref ref_ids
        .ok (setA nars hash (.Inserted id), cat1)

/-- `Fetcher::save_all`: walk the topological order in reverse,
committing every `Fetched` nar, then resolve the root ids. -/
def save_all (cat : Catalog) (nars : List (Str × NarState)) (g : DepGraph)
    (root_hashes : List Str) : Except Unit (List Nat × Catalog) :=
  match g.topo_sort with
  | .error u => .error u
  | .ok q =>
    match q.reverse.foldlM saveStep (nars, cat) with
    | .error u => .error u
    | .ok (nars1, cat1) =>
      match root_hashes.mapM fun h => (lookupA nars1 h).bind NarState.as_inserted with
      | none => .error ()
      | some ids => .ok (ids, cat1)

/-- The commit order realized by `save_all`: the reverse topological
order restricted to the hashes it actually inserts (the `Fetched`
ones). -/
def commitOrder (nars : List (Str × NarState)) (q : List Str) : List Str :=
  q.reverse.filter fun h => ((lookupA nars h).map NarState.isFetched).getD false

/-- `fetch_meta_rec(db, cache_url, root_paths)`: fetch everything, then
commit.  Returns the root ids and the catalog after the commit phase
(the catalog is only read during the fetch phase). -/
def fetch_meta_rec (oracle : Str → Except String Str) (cat : Catalog)
    (root_paths : List StorePath) (fuel : Nat) :
    Except Unit (List Nat) × Catalog :=
  let root_hashes := root_paths.map (·.hash)
  match fetch_all oracle cat root_hashes fuel with
  | .error u => (.error u, cat)
  | .ok st =>
    match save_all cat st.nars st.dep_graph root_hashes with
    | .error u => (.error u, cat)
    | .ok (ids, cat1) => (.ok ids, cat1)

/-! ## The channel ingester (`update/mod.rs`) -/

/-- The bodies the ingester fetches over HTTP, in fetch order: the
first `git-revision` read, `binary-cache-url` (used only without an
override), the decompressed `store-paths` text, and the second
`git-revision` read.  A failed HTTP fetch (or XZ decode) is an
`Except.error`. -/
structure ChannelFetches where
  revision1 : Except String Str
  cache_url_body : Except String Str
  store_paths_body : Except String Str
  revision2 : Except String Str

/-- `NixChannelInfo` (the parts the core consumes). -/
structure NixChannelInfo where
  cache_url : Str
  root_paths : List StorePath
  git_revision : Str
deriving Repr

/-- `get_store_paths`: decompress (done by the oracle here) and parse
every line as a store path. -/
def get_store_paths (body : Except String Str) : Except String (List StorePath) :=
  match body with
  | .error e => .error e
  | .ok text => (rustLines text).mapM StorePath.try_from

/-- `get_nix_channel(channel_url, cache_url)`: read the revision, the
cache url (unless overridden) and the root store paths, then re-read
the revision and require it unchanged. -/
def get_nix_channel (f : ChannelFetches) (cache_url_override : Option Str) :
    Except String NixChannelInfo :=
  match get_git_revision f.revision1 with
  | .error e => .error e
  | .ok rev1 =>
    match (match cache_url_override with
           | some url => .ok url
           | none => f.cache_url_body : Except String Str) with
    | .error e => .error e
    | .ok cache_url =>
      match get_store_paths f.store_paths_body with
      | .error e => .error e
      | .ok root_paths =>
        match get_git_revision f.revision2 with
        | .error e => .error e
        | .ok rev2 =>
          if rev1 = rev2 then
            .ok { cache_url, root_paths, git_revision := rev1 }
          else .error "Revision mismatch"

/-- `add_nix_channel_rec(db, channel_url, cache_url)`: run the channel
reads, the recursive fetch, the commit phase and the root insertion.
The second component is the catalog state when the call returns (or
when it aborts). -/
def add_nix_channel_rec (f : ChannelFetches) (cache_url_override : Option Str)
    (channel_url : Str) (fetch_time : Str) (oracle : Str → Except String Str)
    (fuel : Nat) (cat : Catalog) : Except Unit Nat × Catalog :=
  match get_nix_channel f cache_url_override with
  | .error _ => (.error (), cat)
  | .ok info =>
    match fetch_meta_rec oracle cat info.root_paths fuel with
    | (.error u, cat1) => (.error u, cat1)
    | (.ok _, cat1) =>
      let root : Root :=
        { channel_url := some channel_url, cache_url := some info.cache_url
          git_revision := some info.git_revision, fetch_time := some fetch_time
          status := .Pending }
      let (id, cat2) := insert_root cat1 root (info.root_paths.map (·.hash))
      (.ok id, cat2)

/-! ## Verification glue -/

/-- What one entry of the narinfo index asserts: an in-bounds slice of
`buf` holding the rendered (url-rewritten) narinfo text of a catalog
row with that hash, together with its served file size. -/
def EntryOK (cat : Catalog) (buf : Str) (pr : Str × CacheItem)
    (rows : List NarRow) : Prop :=
  pr.2.start ≤ pr.2.stop ∧ pr.2.stop ≤ buf.length ∧
  ∃ r ∈ rows, r.hash = pr.1 ∧ ∃ nar, rowToNar cat r = .ok (r.id, nar) ∧
    (buf.drop pr.2.start).take (pr.2.stop - pr.2.start) =
      (rewriteUrl nar).format_nar_info ∧
    pr.2.file_size = r.file_size.getD r.nar_size

/-- The index invariant: every entry is good for the processed rows,
and every processed row has an entry under its hash. -/
def CacheInv (cat : Catalog) (st : NarInfoCache) (rows : List NarRow) : Prop :=
  (∀ pr ∈ st.cache, EntryOK cat st.buf pr rows) ∧
  (∀ r ∈ rows, ∃ pr ∈ st.cache, pr.1 = r.hash)

/-- The number of in-edges of `b` whose source is not in `P`.  During
`topo_sort`, `P` is the already-processed prefix of the queue and this
is the value each stored in-degree has been decremented to. -/
def unprocCount : List (Str × List Str) → List Str → Str → Nat
  | [], _, _ => 0
  | p :: rest, P, b =>
    (if p.1 ∈ P then 0 else p.2.count b) + unprocCount rest P b

/-- The invariant of `topo_sort`'s outer loop: the processed position
is inside the queue, the queue holds distinct nodes, the in-degree map
keeps the exact count of unprocessed in-edges, queued nodes have count
zero, and every in-edge of the node at queue position `j` comes from a
node strictly earlier in the queue and already processed. -/
def KahnInv (E : List (Str × List Str)) (inds : List (Str × Nat))
    (q : List Str) (lpos : Nat) : Prop :=
  lpos ≤ q.length ∧ q.Nodup ∧ (∀ v ∈ q, v ∈ keysA E) ∧
  keysA inds = keysA E ∧
  (∀ b ∈ keysA E, lookupA inds b = some (unprocCount E (q.take lpos) b)) ∧
  (∀ b ∈ q, lookupA inds b = some 0) ∧
  (∀ (j : Nat) (hj : j < q.length), ∀ a,
    edgeB E a (q.get ⟨j, hj⟩) = true → a ∈ q.take (min j lpos))

/-- What `save_all`'s commit loop preserves: every `Inserted` id in the
state map and every reference-edge destination in the catalog is the id
of some catalog row. -/
def SaveInv (nars : List (Str × NarState)) (cat : Catalog) : Prop :=
  (∀ h i, (h, NarState.Inserted i) ∈ nars → ∃ r ∈ cat.nars, r.id = i) ∧
  (∀ e ∈ cat.nar_refs, ∃ r ∈ cat.nars, r.id = e.2)

/-- The diamond dependency graph `a → {b, c} → d`, as `add_node` /
`add_dep` record it (hashes shortened to one character). -/
def diamondG : DepGraph :=
  ⟨[(str "a", [str "b", str "c"]), (str "b", [str "d"]),
    (str "c", [str "d"]), (str "d", [])],
   [(str "a", 0), (str "b", 1), (str "c", 1), (str "d", 2)]⟩

/-- The Kahn order of `diamondG`. -/
def diamondQ : List Str := [str "a", str "b", str "c", str "d"]

/-- A concrete fetched nar for the diamond state map. -/
def diamondNar : Nar :=
  { store_path := ⟨str "/nix/store/00000000000000000000000000000000-x"⟩
    meta := { url := ['u'], compression := none, file_hash := none
              file_size := none, nar_hash := ['h'], nar_size := 0
              deriver := none, sig := none, ca := none }
    references := [] }

/-- A state map with every diamond node `Fetched`. -/
def diamondNars : List (Str × NarState) :=
  [(str "a", .Fetched diamondNar), (str "b", .Fetched diamondNar),
   (str "c", .Fetched diamondNar), (str "d", .Fetched diamondNar)]

/-! # Theorems -/

/-! ## C9: store-path parsing -/

/-- The valid store path from the source's `test_parse_nix_path`. -/
def vscodePath : Str :=
  str "/nix/store/5yr2767rqnvwvsfy445ny41lk67fcjjh-VSCode_1.40.1_linux-x64.tar.gz"

/-- A 45-byte string that does not start with `/nix/store/` but meets
every check `StorePath::try_from` actually performs. -/
def oddPrefixPath : Str :=
  str "aaaaaaaaaaa00000000000000000000000000000000-x"

/-- C9 (counterexample): the parser accepts `oddPrefixPath`, a string
that is not of the form `/nix/store/<hash>-<name>`, because the store
prefix is never compared; so the claimed "accepts exactly the strings
`/nix/store/<hash>-<name>` ..." is false. -/
theorem c9_counterexample :
    StorePath.try_from oddPrefixPath = .ok ⟨oddPrefixPath⟩ ∧
      isPre (str "/nix/store/") oddPrefixPath = false := by
  decide

/-- C9 (amended): `StorePath::try_from` accepts exactly the strings
with length in `[45, 212]`, all-ASCII content, byte 43 equal to `-`,
bytes 11..42 over the hash alphabet (`[a-z0-9]` minus `e`, `o`, `u`,
`t`), and bytes 44.. (non-empty, by the length bound) over the name
alphabet `[A-Za-z0-9+\-._?=]` — the `/nix/store/` prefix itself is not
verified; every string outside this set is rejected with a parse
error; on success the path is kept verbatim (lossless formatting) and
`hash_str` / `name` project bytes 11..42 and 44... -/
theorem c9_store_path_characterization (s : Str) :
    ((∃ p, StorePath.try_from s = .ok p) ↔
      (45 ≤ s.length ∧ s.length ≤ 212 ∧ (s.all fun c => c.toNat < 128) ∧
        s.get? 43 = some '-' ∧ is_valid_hash ((s.drop 11).take 32) ∧
        is_valid_name (s.drop 44))) ∧
    (∀ p, StorePath.try_from s = .ok p →
      p.path = s ∧ p.hash_str = (s.drop 11).take 32 ∧ p.name = s.drop 44) := by
  constructor
  · constructor
    · rintro ⟨p, hp⟩
      unfold StorePath.try_from at hp
      split_ifs at hp with h1 h2 h3 h4 h5
      simp only [not_not] at h1 h2 h3 h4 h5
      exact ⟨h1.1, h1.2, h2, h3, h4, h5⟩
    · rintro ⟨h1, h2, h3, h4, h5, h6⟩
      refine ⟨⟨s⟩, ?_⟩
      unfold StorePath.try_from
      split_ifs with g1
      all_goals simp_all
  · intro p hp
    unfold StorePath.try_from at hp
    split_ifs at hp
    injection hp with h
    subst h
    exact ⟨rfl, rfl, rfl⟩

/-- C9 (witness): the characterization applied to the source's own test
vector. -/
theorem c9_witness :
    StorePath.path ⟨vscodePath⟩ = vscodePath ∧
      StorePath.hash_str ⟨vscodePath⟩ = (vscodePath.drop 11).take 32 ∧
      StorePath.name ⟨vscodePath⟩ = vscodePath.drop 44 :=
  (c9_store_path_characterization vscodePath).2 ⟨vscodePath⟩ (by decide)

/-! ## C8: git revision validation -/

/-- C8 (counterexample): a body of forty `g`s — lowercase but not
hexadecimal — is accepted and returned unchanged, while the claim
demands failure for characters outside `0-9a-f`. -/
theorem c8_counterexample :
    get_git_revision (.ok (List.replicate 40 'g')) = .ok (List.replicate 40 'g') ∧
      ((List.replicate 40 'g').all fun c =>
        isAsciiDigit c || (97 ≤ c.toNat && c.toNat ≤ 102)) = false := by
  decide

/-- C8 (amended): `get_git_revision` succeeds exactly when the fetched
body is 40 ASCII alphanumeric characters (`[0-9A-Za-z]`), returning the
body with ASCII uppercase letters lowercased — so a 40-character
lowercase body (in particular lowercase hex) is returned verbatim —
and fails with `Invalid git revision` for every other body; a failed
fetch propagates its error. -/
theorem c8_get_git_revision_characterization (body : Str) :
    (get_git_revision (.ok body) =
      if body.length = 40 ∧ body.all isAsciiAlphanumeric
      then .ok (body.map asciiLower) else .error "Invalid git revision") ∧
    ((body.all fun c => !(65 ≤ c.toNat && c.toNat ≤ 90)) →
      body.map asciiLower = body) ∧
    (∀ e, get_git_revision (.error e) = .error e) := by
  refine ⟨rfl, ?_, fun e => rfl⟩
  intro h
  induction body with
  | nil => rfl
  | cons c t ih =>
    simp only [List.all_cons, Bool.and_eq_true] at h
    simp only [List.map_cons]
    rw [ih h.2]
    have hc : asciiLower c = c := by
      unfold asciiLower
      simp only [Bool.not_eq_eq_eq_not, Bool.not_true] at h
      simp [h.1]
    rw [hc]

/-- C8 (witness): the characterization applied to a concrete lowercase
hex body. -/
theorem c8_witness :
    (List.replicate 40 'a').map asciiLower = List.replicate 40 'a' :=
  (c8_get_git_revision_characterization (List.replicate 40 'a')).2.1 (by decide)

/-! ## C1 and C2: range parsing and the nar payload response -/

theorem parseU64_cons_of_ne {c : Char} {rest : Str} (h : c ≠ '+') :
    parseU64 (c :: rest) = parseU64core (c :: rest) := by
  unfold parseU64
  split
  · next rest2 heq =>
      injection heq with h1 h2
      exact absurd h1 h
  · rfl

theorem parseU64core_chars {L : Str} {l : Nat} (h : parseU64core L = some l) :
    ∀ c ∈ L, isAsciiDigit c = true := by
  unfold parseU64core at h
  split_ifs at h with h1
  intro c hc
  simp only [Bool.and_eq_true, List.all_eq_true] at h1
  exact h1.2 c hc

theorem parseU64_chars {L : Str} {l : Nat} (h : parseU64 L = some l) :
    ∀ c ∈ L, isAsciiDigit c = true ∨ c = '+' := by
  match L with
  | [] => intro c hc; cases hc
  | '+' :: rest =>
    intro c hc
    rw [List.mem_cons] at hc
    rcases hc with rfl | hc
    · exact Or.inr rfl
    · exact Or.inl (parseU64core_chars (L := rest) h c hc)
  | c0 :: rest =>
    intro c hc
    by_cases hc0 : c0 = '+'
    · subst hc0
      rw [List.mem_cons] at hc
      rcases hc with rfl | hc
      · exact Or.inr rfl
      · exact Or.inl (parseU64core_chars (L := rest) h c hc)
    · rw [parseU64_cons_of_ne hc0] at h
      exact Or.inl (parseU64core_chars h c hc)

theorem parseU64_ne_nil {L : Str} {l : Nat} (h : parseU64 L = some l) : L ≠ [] := by
  intro he
  subst he
  simp [parseU64, parseU64core] at h

/-- A digit-or-plus char is visible ASCII and neither `-` nor `,`. -/
theorem digitPlus_facts {c : Char} (h : isAsciiDigit c = true ∨ c = '+') :
    isHeaderChar c = true ∧ c ≠ '-' ∧ c ≠ ',' := by
  have hval : 48 ≤ c.toNat ∧ c.toNat ≤ 57 ∨ c.toNat = 43 := by
    rcases h with h | h
    · unfold isAsciiDigit at h
      simp only [Bool.and_eq_true, decide_eq_true_eq] at h
      exact Or.inl h
    · subst h; exact Or.inr rfl
  refine ⟨?_, ?_, ?_⟩
  · unfold isHeaderChar
    simp only [Bool.or_eq_true, Bool.and_eq_true, decide_eq_true_eq]
    omega
  · intro he; subst he; revert hval; decide
  · intro he; subst he; revert hval; decide

theorem isPre_append_self (p t : Str) : isPre p (p ++ t) = true := by
  induction p with
  | nil => rfl
  | cons c p ih => simpa [isPre] using ih

theorem findChar_none_of_not_mem {L : Str} {c : Char} (h : c ∉ L) :
    findChar L c = none := by
  induction L with
  | nil => rfl
  | cons x rest ih =>
    simp only [List.mem_cons, not_or] at h
    simp [findChar, Ne.symm h.1, ih h.2]

theorem findChar_append_cons {L : Str} {c : Char} (h : c ∉ L) (t : Str) :
    findChar (L ++ c :: t) c = some L.length := by
  induction L with
  | nil => simp [findChar]
  | cons x rest ih =>
    simp only [List.mem_cons, not_or] at h
    simp [findChar, Ne.symm h.1, ih h.2]

/-- Evaluate `parse_content_range` on a well-formed open-ended header. -/
theorem parse_content_range_open {L : Str} {l : Nat} (fs : Nat)
    (hL : parseU64 L = some l) (hl : 1 ≤ l) :
    parse_content_range (some (str "bytes=" ++ L ++ ['-'])) fs =
      if l - 1 < fs then .ok (some (l - 1, fs)) else .ok none := by
  have hch := parseU64_chars hL
  have hnotdash : '-' ∉ L := fun hmem => (digitPlus_facts (hch _ hmem)).2.1 rfl
  have hvis : (str "bytes=" ++ L ++ ['-']).all isHeaderChar = true := by
    rw [List.all_eq_true]
    intro c hc
    rw [List.append_assoc, List.mem_append] at hc
    rcases hc with hc | hc
    · fin_cases hc <;> rfl
    · rw [List.mem_append] at hc
      rcases hc with hc | hc
      · exact (digitPlus_facts (hch _ hc)).1
      · simp only [List.mem_singleton] at hc; subst hc; rfl
  have hpre : isPre (str "bytes=") (str "bytes=" ++ (L ++ ['-'])) = true :=
    isPre_append_self _ _
  have hassoc : str "bytes=" ++ L ++ ['-'] = str "bytes=" ++ (L ++ ['-']) :=
    List.append_assoc _ _ _
  rw [hassoc] at hvis
  rw [hassoc]
  simp only [parse_content_range, hvis, hpre]
  have hdrop := List.drop_left (str "bytes=") (L ++ ['-'])
  rw [show (str "bytes=").length = 6 from rfl] at hdrop
  rw [hdrop, findChar_append_cons hnotdash []]
  have htake : List.take L.length (L ++ ['-']) = L := List.take_left _ _
  have hl0 : ¬ (l = 0) := by omega
  simp only [htake, hL, Option.bind, hl0, if_false, List.length_append,
    List.length_singleton, if_true, not_true, ite_false, ite_true, if_neg, reduceIte]

/-- Evaluate `parse_content_range` on a well-formed closed header. -/
theorem parse_content_range_closed {L R : Str} {l r : Nat} (fs : Nat)
    (hL : parseU64 L = some l) (hR : parseU64 R = some r) (hl : 1 ≤ l) :
    parse_content_range (some (str "bytes=" ++ L ++ '-' :: R)) fs =
      if l - 1 ≤ r ∧ r < fs then .ok (some (l - 1, r)) else .ok none := by
  have hchL := parseU64_chars hL
  have hchR := parseU64_chars hR
  have hnotdash : '-' ∉ L := fun hmem => (digitPlus_facts (hchL _ hmem)).2.1 rfl
  have hnocomma : ',' ∉ R := fun hmem => (digitPlus_facts (hchR _ hmem)).2.2 rfl
  have hvis : (str "bytes=" ++ (L ++ '-' :: R)).all isHeaderChar = true := by
    rw [List.all_eq_true]
    intro c hc
    rw [List.mem_append] at hc
    rcases hc with hc | hc
    · fin_cases hc <;> rfl
    · rw [List.mem_append] at hc
      rcases hc with hc | hc
      · exact (digitPlus_facts (hchL _ hc)).1
      · rw [List.mem_cons] at hc
        rcases hc with rfl | hc
        · rfl
        · exact (digitPlus_facts (hchR _ hc)).1
  have hpre : isPre (str "bytes=") (str "bytes=" ++ (L ++ '-' :: R)) = true :=
    isPre_append_self _ _
  have hassoc : str "bytes=" ++ L ++ '-' :: R = str "bytes=" ++ (L ++ '-' :: R) :=
    List.append_assoc _ _ _
  rw [hassoc]
  simp only [parse_content_range, hvis, hpre]
  have hdrop := List.drop_left (str "bytes=") (L ++ '-' :: R)
  rw [show (str "bytes=").length = 6 from rfl] at hdrop
  rw [hdrop, findChar_append_cons hnotdash R]
  have hsplit : L ++ '-' :: R = (L ++ ['-']) ++ R := by
    rw [List.append_assoc]; rfl
  have hdrop2 : (L ++ '-' :: R).drop (L.length + 1) = R := by
    rw [hsplit, show L.length + 1 = (L ++ ['-']).length by simp]
    exact List.drop_left _ _
  have htake : List.take L.length (L ++ '-' :: R) = L := List.take_left _ _
  have hl0 : ¬ (l = 0) := by omega
  have hRnil : R ≠ [] := parseU64_ne_nil hR
  have hRlen : 1 ≤ R.length := by
    cases R with
    | nil => exact absurd rfl hRnil
    | cons a t => simp
  have hlen : (L ++ '-' :: R).length = L.length + 1 + R.length := by
    simp [List.length_append]; omega
  have hne : ¬ (L.length + 1 = (L ++ '-' :: R).length) := by
    rw [hlen]; omega
  have hslice : rsSlice (L ++ '-' :: R) (L.length + 1) (L ++ '-' :: R).length = .ok R := by
    unfold rsSlice
    rw [if_pos ⟨by rw [hlen]; omega, le_refl _⟩]
    rw [hdrop2, hlen, show L.length + 1 + R.length - (L.length + 1) = R.length by omega,
      List.take_length]
  simp only [htake, hL, Option.bind, hl0, if_false, ite_false, reduceIte,
    findChar_none_of_not_mem hnocomma, hdrop2, hne, hslice, hR]
  simp

/-- C1 (counterexample): with `file_size = 1000` the header
`bytes=200-199` — for which the claim's precondition `LHS ≤ RHS` fails,
so the claim demands the full file at status 200 — is accepted: the
code only requires `LHS - 1 ≤ RHS` and serves the empty window
`[199, 199)` with status 206. -/
theorem c1_counterexample :
    serve_nar_file 1000 (some (str "bytes=200-199")) =
      .ok { status := 206, content_range := some (str "bytes 200-199/1000")
            content_length := 0, window := (199, 199) } ∧
    serve_nar_file 1000 (some (str "bytes=200-199")) ≠
      .ok { status := 200, content_range := none
            content_length := 1000, window := (0, 1000) } := by
  decide

/-- C1 (amended): for a found hash of size `file_size`, the served
window is: no `Range` header — the full file `[0, file_size)` at
status 200; `bytes=LHS-` with `1 ≤ LHS` and `LHS - 1 < file_size` —
the window `[LHS-1, file_size)`; `bytes=LHS-RHS` under the
precondition `LHS - 1 ≤ RHS < file_size` (not `LHS ≤ RHS` as claimed)
— the window `[LHS-1, RHS)`; whenever the header is ignored
(`parse_content_range` returns no range; this covers malformed and
out-of-range headers on which it does not panic) the full file is
served at status 200; and whenever a range `[a, b)` is accepted the
status is 206, `Content-Range` is `bytes {a+1}-{b}/{file_size}` and
`Content-Length` is `b - a`. -/
theorem c1_range_semantics :
    (∀ fs, serve_nar_file fs none =
      .ok { status := 200, content_range := none
            content_length := fs, window := (0, fs) }) ∧
    (∀ fs L l, parseU64 L = some l → 1 ≤ l → l - 1 < fs →
      serve_nar_file fs (some (str "bytes=" ++ L ++ ['-'])) =
        .ok { status := 206
              content_range := some (contentRangeValue (l - 1) fs fs)
              content_length := fs - (l - 1), window := (l - 1, fs) }) ∧
    (∀ fs L R l r, parseU64 L = some l → parseU64 R = some r → 1 ≤ l →
      l - 1 ≤ r → r < fs →
      serve_nar_file fs (some (str "bytes=" ++ L ++ '-' :: R)) =
        .ok { status := 206
              content_range := some (contentRangeValue (l - 1) r fs)
              content_length := r - (l - 1), window := (l - 1, r) }) ∧
    (∀ fs h, parse_content_range h fs = .ok none →
      serve_nar_file fs h =
        .ok { status := 200, content_range := none
              content_length := fs, window := (0, fs) }) ∧
    (∀ fs h a b, parse_content_range h fs = .ok (some (a, b)) →
      serve_nar_file fs h =
        .ok { status := 206, content_range := some (contentRangeValue a b fs)
              content_length := b - a, window := (a, b) }) := by
  refine ⟨fun fs => rfl, ?_, ?_, ?_, ?_⟩
  · intro fs L l hL hl hlt
    unfold serve_nar_file
    rw [parse_content_range_open fs hL hl, if_pos hlt]
  · intro fs L R l r hL hR hl hle hlt
    unfold serve_nar_file
    rw [parse_content_range_closed fs hL hR hl, if_pos ⟨hle, hlt⟩]
  · intro fs h hp
    unfold serve_nar_file
    rw [hp]
  · intro fs h a b hp
    unfold serve_nar_file
    rw [hp]

/-- C1 (witness): the amended closed form at the spec's own example —
`file_size = 1000`, header `bytes=100-199` — gives window `[99, 199)`,
`Content-Range: bytes 100-199/1000`, `Content-Length: 100`, status
206. -/
theorem c1_witness :
    serve_nar_file 1000 (some (str "bytes=" ++ str "100" ++ '-' :: str "199")) =
      .ok { status := 206
            content_range := some (contentRangeValue 99 199 1000)
            content_length := 100, window := (99, 199) } :=
  c1_range_semantics.2.2.1 1000 (str "100") (str "199") 100 199
    (by decide) (by decide) (by decide) (by decide) (by decide)

/-- C2 (bug): `parse_content_range` is not total: on the multi-range
header `bytes=100-199,300-399` the comma position is computed relative
to the substring after `-` (index 3 of `199,300-399`) but used as an
absolute slice bound, so the code evaluates `s["100-".len()..3]`,
whose start exceeds its end — a panic, modelled as `Except.error`. -/
theorem c2_parse_content_range_panics :
    parse_content_range (some (str "bytes=100-199,300-399")) 1000 = .error () ∧
    parse_content_range (some (str "bytes=0-10")) 1000 = .ok none ∧
    serve_nar_file 1000 (some (str "bytes=0-10")) =
      .ok { status := 200, content_range := none
            content_length := 1000, window := (0, 1000) } := by
  decide

/-! ## C10: the root route and where 405 can arise -/

/-- C10: every request whose path is exactly `/` gets `200 It works`,
whatever the method; and a 405 response can only come from the
`/nix-cache-info`, `/nar/<hash>` or `/<hash>.narinfo` routes. -/
theorem c10_routing :
    (∀ (data : ServerData) (m : Method) (rh : Option Str),
      serve data m (str "/") rh = .ok (.simple 200 (str "It works"))) ∧
    (∀ (data : ServerData) (m : Method) (p : Str) (rh : Option Str) (r : Response),
      serve data m p rh = .ok r → r.statusCode = 405 →
      p = str "/nix-cache-info" ∨ isPre (str "/nar/") p = true ∨
        (¬ (p.drop 1).contains '/' ∧ isSuf (str ".narinfo") p = true)) := by
  constructor
  · intro data m rh
    rfl
  · intro data m p rh r hs h405
    unfold serve at hs
    split_ifs at hs with h1 h2 h3
    · injection hs with h0
      subst h0
      exact absurd h405 (by decide)
    · exact Or.inl h2
    · exact Or.inr (Or.inl h3)
    · -- the `.narinfo` / 404 tail
      split at hs
      · exact absurd hs (by simp)
      · next tail htail =>
        split_ifs at hs with h4
        · -- `.narinfo` guard holds
          refine Or.inr (Or.inr ?_)
          have htail2 : tail = p.drop 1 := by
            unfold rsSlice at htail
            split_ifs at htail with h5
            · injection htail with h6
              subst h6
              have : (p.drop 1).length = p.length - 1 := List.length_drop 1 p
              rw [← this, List.take_length]
          rw [htail2] at h4
          exact h4
        · injection hs with h0
          subst h0
          exact absurd h405 (by decide)

/-- C10 (witness): a concrete 405 — a POST to `/nix-cache-info` on an
empty server — indeed names one of the three method-checked routes. -/
theorem c10_witness :
    str "/nix-cache-info" = str "/nix-cache-info" ∨
      isPre (str "/nar/") (str "/nix-cache-info") = true ∨
      (¬ ((str "/nix-cache-info").drop 1).contains '/' ∧
        isSuf (str ".narinfo") (str "/nix-cache-info") = true) :=
  c10_routing.2 ⟨⟨[], []⟩, []⟩ .POST (str "/nix-cache-info") none
    (.simple 405 []) (by decide) (by decide)

/-! ## C6: narinfo render / parse round trip -/

theorem digitChar_isDigit {d : Nat} (h : d < 10) :
    isAsciiDigit (digitChar d) = true := by
  interval_cases d <;> decide

theorem digitVal_digitChar {d : Nat} (h : d < 10) : digitVal (digitChar d) = d := by
  interval_cases d <;> decide

theorem digitsVal_append_singleton (l : Str) (c : Char) :
    digitsVal (l ++ [c]) = 10 * digitsVal l + digitVal c := by
  unfold digitsVal
  rw [List.foldl_append]
  simp [Nat.mul_comm]

theorem natToCharsAux_spec :
    ∀ fuel n, n < fuel →
      (natToCharsAux fuel n).all isAsciiDigit = true ∧
      natToCharsAux fuel n ≠ [] ∧
      digitsVal (natToCharsAux fuel n) = n := by
  intro fuel
  induction fuel with
  | zero => intro n h; omega
  | succ fuel ih =>
    intro n h
    by_cases h10 : n < 10
    · simp only [natToCharsAux, if_pos h10]
      refine ⟨by simp [digitChar_isDigit h10], by simp, ?_⟩
      simp [digitsVal, digitVal_digitChar h10]
    · have hd : n / 10 < fuel := by omega
      obtain ⟨ha, hb, hc⟩ := ih (n / 10) hd
      simp only [natToCharsAux, if_neg h10]
      refine ⟨?_, by simp, ?_⟩
      · rw [List.all_append, ha]
        simp [digitChar_isDigit (Nat.mod_lt n (by omega))]
      · rw [digitsVal_append_singleton, hc,
          digitVal_digitChar (Nat.mod_lt n (by omega))]
        omega

theorem natToChars_spec (n : Nat) :
    (natToChars n).all isAsciiDigit = true ∧
    natToChars n ≠ [] ∧
    digitsVal (natToChars n) = n :=
  natToCharsAux_spec (n + 1) n (by omega)

theorem parseU64_natToChars {n : Nat} (h : n < u64Lim) :
    parseU64 (natToChars n) = some n := by
  obtain ⟨ha, hb, hc⟩ := natToChars_spec n
  have hcore : parseU64core (natToChars n) = some n := by
    unfold parseU64core
    rw [if_pos (by simp [List.isEmpty_iff, hb, ha]), hc, if_pos h]
  match hx : natToChars n with
  | [] => exact absurd hx hb
  | c :: rest =>
    have hcd : isAsciiDigit c = true := by
      rw [hx, List.all_cons, Bool.and_eq_true] at ha
      exact ha.1
    have hcne : c ≠ '+' := by
      intro he
      subst he
      simp [isAsciiDigit] at hcd
    rw [parseU64_cons_of_ne hcne, ← hx, hcore]

theorem natToChars_no_newline (n : Nat) : '\n' ∉ natToChars n := by
  intro hmem
  have ha := (natToChars_spec n).1
  rw [List.all_eq_true] at ha
  have := ha _ hmem
  simp [isAsciiDigit] at this

theorem natToChars_no_tail_cr (n : Nat) : (natToChars n).getLast? ≠ some '\r' := by
  intro hlast
  have ha := (natToChars_spec n).1
  rw [List.all_eq_true] at ha
  have hmem : '\r' ∈ natToChars n := by
    have := List.getLast?_eq_some_iff.mp hlast
    obtain ⟨l, hl⟩ := this
    rw [hl]
    simp
  have := ha _ hmem
  simp [isAsciiDigit] at this

theorem splitAll_ne_nil (c : Char) (s : Str) : splitAll c s ≠ [] := by
  cases s with
  | nil => simp [splitAll]
  | cons x rest =>
    unfold splitAll
    split_ifs
    · simp
    · split <;> simp

theorem splitAll_append_cons {l : Str} {c : Char} (h : c ∉ l) (rest : Str) :
    splitAll c (l ++ c :: rest) = l :: splitAll c rest := by
  induction l with
  | nil => simp [splitAll]
  | cons x t ih =>
    simp only [List.mem_cons, not_or] at h
    simp only [List.cons_append]
    conv_lhs => unfold splitAll
    rw [if_neg (Ne.symm h.1)]
    rw [ih h.2]

theorem splitTerminator_append_cons {l : Str} {c : Char} (h : c ∉ l) (rest : Str) :
    splitTerminator c (l ++ c :: rest) = l :: splitTerminator c rest := by
  unfold splitTerminator
  rw [splitAll_append_cons h rest]
  cases hsp : splitAll c rest with
  | nil => exact absurd hsp (splitAll_ne_nil c rest)
  | cons p0 pt =>
    simp only [List.getLast?_cons_cons]
    split_ifs with hg
    · rfl
    · rfl

theorem stripCR_eq_self {l : Str} (h : l.getLast? ≠ some '\r') : stripCR l = l := by
  unfold stripCR
  split
  · next heq => exact absurd heq h
  · rfl

theorem rustLines_append_cons {l : Str} (h : '\n' ∉ l) (rest : Str) :
    rustLines (l ++ '\n' :: rest) = stripCR l :: rustLines rest := by
  unfold rustLines
  rw [splitTerminator_append_cons h rest]
  rfl

theorem getLast?_append_cons (xs : Str) (c : Char) (ys : Str) :
    (xs ++ c :: ys).getLast? = (c :: ys).getLast? :=
  List.getLast?_append_of_ne_nil xs (by simp)

theorem rustLines_nil : rustLines [] = [] := rfl

theorem stripCR_infoLine (k : Str) {v : Str} (hcr : v.getLast? ≠ some '\r') :
    stripCR (k ++ ':' :: ' ' :: v) = k ++ ':' :: ' ' :: v := by
  apply stripCR_eq_self
  rw [getLast?_append_cons k ':' (' ' :: v)]
  cases v with
  | nil => decide
  | cons w ws =>
    rw [List.getLast?_cons_cons, List.getLast?_cons_cons]
    exact hcr

theorem rustLines_infoLine {k v : Str} (hk : '\n' ∉ k) (hv : '\n' ∉ v)
    (hcr : v.getLast? ≠ some '\r') (rest : Str) :
    rustLines (infoLine k v ++ rest) = (k ++ ':' :: ' ' :: v) :: rustLines rest := by
  have hshape : infoLine k v ++ rest = (k ++ ':' :: ' ' :: v) ++ '\n' :: rest := by
    simp [infoLine]
  have hmem : '\n' ∉ k ++ ':' :: ' ' :: v := by
    intro hm
    rw [List.mem_append, List.mem_cons, List.mem_cons] at hm
    rcases hm with hm | hm | hm | hm
    · exact hk hm
    · exact absurd hm (by decide)
    · exact absurd hm (by decide)
    · exact hv hm
  rw [hshape, rustLines_append_cons hmem rest, stripCR_infoLine k hcr]

theorem rustLines_infoLineOpt {k : Str} (hk : '\n' ∉ k) {v? : Option Str}
    (hv : ∀ s ∈ v?, '\n' ∉ s ∧ s.getLast? ≠ some '\r') (rest : Str) :
    rustLines (infoLineOpt k v? ++ rest) =
      (v?.map fun v => k ++ ':' :: ' ' :: v).toList ++ rustLines rest := by
  cases v? with
  | none => simp [infoLineOpt]
  | some v =>
    obtain ⟨h1, h2⟩ := hv v rfl
    simp only [infoLineOpt]
    rw [rustLines_infoLine hk h1 h2 rest]
    rfl

theorem rustLines_infoLineOpt_last {k : Str} (hk : '\n' ∉ k) {v? : Option Str}
    (hv : ∀ s ∈ v?, '\n' ∉ s ∧ s.getLast? ≠ some '\r') :
    rustLines (infoLineOpt k v?) =
      (v?.map fun v => k ++ ':' :: ' ' :: v).toList := by
  have h := rustLines_infoLineOpt hk hv []
  rw [List.append_nil, rustLines_nil, List.append_nil] at h
  exact h

theorem parseInfoLines_cons_ok {acc acc1 : InfoAcc} {l : Str}
    (h : parseInfoLine acc l = .ok acc1) (ls : List Str) :
    parseInfoLines acc (l :: ls) = parseInfoLines acc1 ls := by
  conv_lhs => unfold parseInfoLines
  rw [h]

theorem parseInfoLine_StorePath (acc : InfoAcc) {v : Str} {p : StorePath}
    (hp : StorePath.try_from v = .ok p) :
    parseInfoLine acc (str "StorePath" ++ ':' :: ' ' :: v) =
      .ok { acc with store_path := some p } := by
  have h0 : parseInfoLine acc (str "StorePath" ++ ':' :: ' ' :: v) =
      match StorePath.try_from v with
      | .error _ => .error "Invalid StorePath"
      | .ok p1 => .ok { acc with store_path := some p1 } := rfl
  rw [h0, hp]

theorem parseInfoLine_URL (acc : InfoAcc) (v : Str) :
    parseInfoLine acc (str "URL" ++ ':' :: ' ' :: v) =
      .ok { acc with url := some v } := rfl

theorem parseInfoLine_Compression (acc : InfoAcc) (v : Str) :
    parseInfoLine acc (str "Compression" ++ ':' :: ' ' :: v) =
      .ok { acc with compression := some v } := rfl

theorem parseInfoLine_FileHash (acc : InfoAcc) (v : Str) :
    parseInfoLine acc (str "FileHash" ++ ':' :: ' ' :: v) =
      .ok { acc with file_hash := some v } := rfl

theorem parseInfoLine_FileSize (acc : InfoAcc) {v : Str} {x : Nat}
    (hv : parseU64 v = some x) :
    parseInfoLine acc (str "FileSize" ++ ':' :: ' ' :: v) =
      .ok { acc with file_size := some x } := by
  have h0 : parseInfoLine acc (str "FileSize" ++ ':' :: ' ' :: v) =
      match parseU64 v with
      | none => .error "Invalid FileSize"
      | some y => .ok { acc with file_size := some y } := rfl
  rw [h0, hv]

theorem parseInfoLine_NarHash (acc : InfoAcc) (v : Str) :
    parseInfoLine acc (str "NarHash" ++ ':' :: ' ' :: v) =
      .ok { acc with nar_hash := some v } := rfl

theorem parseInfoLine_NarSize (acc : InfoAcc) {v : Str} {x : Nat}
    (hv : parseU64 v = some x) :
    parseInfoLine acc (str "NarSize" ++ ':' :: ' ' :: v) =
      .ok { acc with nar_size := some x } := by
  have h0 : parseInfoLine acc (str "NarSize" ++ ':' :: ' ' :: v) =
      match parseU64 v with
      | none => .error "Invalid NarSize"
      | some y => .ok { acc with nar_size := some y } := rfl
  rw [h0, hv]

theorem parseInfoLine_References (acc : InfoAcc) (v : Str) :
    parseInfoLine acc (str "References" ++ ':' :: ' ' :: v) =
      .ok { acc with references := some v } := rfl

theorem parseInfoLine_Sig (acc : InfoAcc) (v : Str) :
    parseInfoLine acc (str "Sig" ++ ':' :: ' ' :: v) =
      .ok { acc with sig := some v } := rfl

theorem parseInfoLine_Deriver (acc : InfoAcc) (v : Str) :
    parseInfoLine acc (str "Deriver" ++ ':' :: ' ' :: v) =
      .ok { acc with deriver := some v } := rfl

theorem parseInfoLine_CA (acc : InfoAcc) (v : Str) :
    parseInfoLine acc (str "CA" ++ ':' :: ' ' :: v) =
      .ok { acc with ca := some v } := rfl

theorem parseInfoLines_optCompression (acc : InfoAcc) (v? : Option Str) (ls : List Str)
    (hacc : acc.compression = none) :
    parseInfoLines acc
      ((v?.map fun v => str "Compression" ++ ':' :: ' ' :: v).toList ++ ls) =
      parseInfoLines { acc with compression := v? } ls := by
  cases v? with
  | none =>
    rw [show ({ acc with compression := none } : InfoAcc) = acc from by rw [← hacc]]
    rfl
  | some v =>
    show parseInfoLines acc ((str "Compression" ++ ':' :: ' ' :: v) :: ls) = _
    exact parseInfoLines_cons_ok (parseInfoLine_Compression acc v) ls

theorem parseInfoLines_optFileHash (acc : InfoAcc) (v? : Option Str) (ls : List Str)
    (hacc : acc.file_hash = none) :
    parseInfoLines acc
      ((v?.map fun v => str "FileHash" ++ ':' :: ' ' :: v).toList ++ ls) =
      parseInfoLines { acc with file_hash := v? } ls := by
  cases v? with
  | none =>
    rw [show ({ acc with file_hash := none } : InfoAcc) = acc from by rw [← hacc]]
    rfl
  | some v =>
    show parseInfoLines acc ((str "FileHash" ++ ':' :: ' ' :: v) :: ls) = _
    exact parseInfoLines_cons_ok (parseInfoLine_FileHash acc v) ls

theorem parseInfoLines_optFileSize (acc : InfoAcc) (sz? : Option Nat) (ls : List Str)
    (hacc : acc.file_size = none) (hsz : ∀ x ∈ sz?, x < u64Lim) :
    parseInfoLines acc
      (((sz?.map natToChars).map fun v => str "FileSize" ++ ':' :: ' ' :: v).toList ++ ls) =
      parseInfoLines { acc with file_size := sz? } ls := by
  cases sz? with
  | none =>
    rw [show ({ acc with file_size := none } : InfoAcc) = acc from by rw [← hacc]]
    rfl
  | some x =>
    show parseInfoLines acc ((str "FileSize" ++ ':' :: ' ' :: natToChars x) :: ls) = _
    exact parseInfoLines_cons_ok
      (parseInfoLine_FileSize acc (parseU64_natToChars (hsz x rfl))) ls

theorem parseInfoLines_optSig (acc : InfoAcc) (v? : Option Str) (ls : List Str)
    (hacc : acc.sig = none) :
    parseInfoLines acc
      ((v?.map fun v => str "Sig" ++ ':' :: ' ' :: v).toList ++ ls) =
      parseInfoLines { acc with sig := v? } ls := by
  cases v? with
  | none =>
    rw [show ({ acc with sig := none } : InfoAcc) = acc from by rw [← hacc]]
    rfl
  | some v =>
    show parseInfoLines acc ((str "Sig" ++ ':' :: ' ' :: v) :: ls) = _
    exact parseInfoLines_cons_ok (parseInfoLine_Sig acc v) ls

theorem parseInfoLines_optDeriver (acc : InfoAcc) (v? : Option Str) (ls : List Str)
    (hacc : acc.deriver = none) :
    parseInfoLines acc
      ((v?.map fun v => str "Deriver" ++ ':' :: ' ' :: v).toList ++ ls) =
      parseInfoLines { acc with deriver := v? } ls := by
  cases v? with
  | none =>
    rw [show ({ acc with deriver := none } : InfoAcc) = acc from by rw [← hacc]]
    rfl
  | some v =>
    show parseInfoLines acc ((str "Deriver" ++ ':' :: ' ' :: v) :: ls) = _
    exact parseInfoLines_cons_ok (parseInfoLine_Deriver acc v) ls

theorem parseInfoLines_optCA_last (acc : InfoAcc) (v? : Option Str)
    (hacc : acc.ca = none) :
    parseInfoLines acc (v?.map fun v => str "CA" ++ ':' :: ' ' :: v).toList =
      .ok { acc with ca := v? } := by
  cases v? with
  | none =>
    rw [show ({ acc with ca := none } : InfoAcc) = acc from by rw [← hacc]]
    rfl
  | some v =>
    show parseInfoLines acc [str "CA" ++ ':' :: ' ' :: v] = _
    rw [parseInfoLines_cons_ok (parseInfoLine_CA acc v) []]
    rfl

/-- C6 (amended): rendering then parsing reproduces a Nar exactly,
provided additionally that no rendered field value ends in a carriage
return (a field ending in `'\r'` loses it, because `str::lines` treats
`\r\n` as one line terminator — see the counterexample), that the
store path itself contains no newline, and that the sizes fit in
`u64` (they are `u64` in the source). -/
theorem c6_round_trip (n : Nar)
    (hsp : StorePath.try_from n.store_path.path = .ok n.store_path)
    (hspn : '\n' ∉ n.store_path.path)
    (hspc : n.store_path.path.getLast? ≠ some '\r')
    (hurl : '\n' ∉ n.meta.url) (hurlc : n.meta.url.getLast? ≠ some '\r')
    (hcomp : ∀ s ∈ n.meta.compression, '\n' ∉ s ∧ s.getLast? ≠ some '\r')
    (hfh : ∀ s ∈ n.meta.file_hash, '\n' ∉ s ∧ s.getLast? ≠ some '\r')
    (hfs : ∀ x ∈ n.meta.file_size, x < u64Lim)
    (hnh : '\n' ∉ n.meta.nar_hash) (hnhc : n.meta.nar_hash.getLast? ≠ some '\r')
    (hns : n.meta.nar_size < u64Lim)
    (href : '\n' ∉ n.references) (hrefc : n.references.getLast? ≠ some '\r')
    (hsig : ∀ s ∈ n.meta.sig, '\n' ∉ s ∧ s.getLast? ≠ some '\r')
    (hder : ∀ s ∈ n.meta.deriver, '\n' ∉ s ∧ s.getLast? ≠ some '\r')
    (hca : ∀ s ∈ n.meta.ca, '\n' ∉ s ∧ s.getLast? ≠ some '\r') :
    Nar.parse_nar_info n.format_nar_info = .ok n := by
  have hfsLines : ∀ s ∈ n.meta.file_size.map natToChars,
      '\n' ∉ s ∧ s.getLast? ≠ some '\r' := by
    intro s hs
    rw [Option.mem_def, Option.map_eq_some'] at hs
    obtain ⟨x, _, rfl⟩ := hs
    exact ⟨natToChars_no_newline x, natToChars_no_tail_cr x⟩
  unfold Nar.format_nar_info Nar.infoLines Nar.parse_nar_info
  rw [rustLines_infoLine (by decide) hspn hspc,
      rustLines_infoLine (by decide) hurl hurlc,
      rustLines_infoLineOpt (by decide) hcomp,
      rustLines_infoLineOpt (by decide) hfh,
      rustLines_infoLineOpt (by decide) hfsLines,
      rustLines_infoLine (by decide) hnh hnhc,
      rustLines_infoLine (by decide) (natToChars_no_newline _) (natToChars_no_tail_cr _),
      rustLines_infoLine (by decide) href hrefc,
      rustLines_infoLineOpt (by decide) hsig,
      rustLines_infoLineOpt (by decide) hder,
      rustLines_infoLineOpt_last (by decide) hca]
  rw [parseInfoLines_cons_ok (parseInfoLine_StorePath _ hsp),
      parseInfoLines_cons_ok (parseInfoLine_URL _ _),
      parseInfoLines_optCompression _ _ _ rfl,
      parseInfoLines_optFileHash _ _ _ rfl,
      parseInfoLines_optFileSize _ _ _ rfl hfs,
      parseInfoLines_cons_ok (parseInfoLine_NarHash _ _),
      parseInfoLines_cons_ok (parseInfoLine_NarSize _ (parseU64_natToChars hns)),
      parseInfoLines_cons_ok (parseInfoLine_References _ _),
      parseInfoLines_optSig _ _ _ rfl,
      parseInfoLines_optDeriver _ _ _ rfl,
      parseInfoLines_optCA_last _ _ rfl]
  rfl

/-- C6 (counterexample): a valid Nar in the claim's sense — parseable
store path, no newline in any field — whose url ends in a carriage
return does not round-trip: rendering writes `URL: u\r\n`, and parsing
strips the `\r` together with the `\n`, so the parsed url is `u`. -/
theorem c6_counterexample :
    Nar.parse_nar_info (Nar.format_nar_info
      { store_path := ⟨str "/nix/store/00000000000000000000000000000000-x"⟩
        meta := { url := ['u', '\r'], compression := none, file_hash := none
                  file_size := none, nar_hash := ['h'], nar_size := 0
                  deriver := none, sig := none, ca := none }
        references := [] }) =
      .ok { store_path := ⟨str "/nix/store/00000000000000000000000000000000-x"⟩
            meta := { url := ['u'], compression := none, file_hash := none
                      file_size := none, nar_hash := ['h'], nar_size := 0
                      deriver := none, sig := none, ca := none }
            references := [] } ∧
    (['u'] : Str) ≠ ['u', '\r'] ∧
    StorePath.try_from (str "/nix/store/00000000000000000000000000000000-x") =
      .ok ⟨str "/nix/store/00000000000000000000000000000000-x"⟩ ∧
    '\n' ∉ (['u', '\r'] : Str) := by
  refine ⟨by decide, by decide, by decide, by decide⟩

/-- C6 (witness): the amended round trip on the crate's own
`test_nar_info_parse` vector. -/
theorem c6_witness :
    Nar.parse_nar_info (Nar.format_nar_info
      { store_path := ⟨str "/nix/store/yhzvzdq82lzk0kvrp3i79yhjnhps6qpk-hello-2.10"⟩
        meta := { url := str "some/url", compression := some (str "xz")
                  file_hash := some (str "file:hash"), file_size := some 123
                  nar_hash := str "nar:hash", nar_size := 456
                  deriver := some (str "some.drv"), sig := some (str "s:i/g 2")
                  ca := some (str "fixed:hash") }
        references := str "ref1 ref2" }) =
      .ok { store_path := ⟨str "/nix/store/yhzvzdq82lzk0kvrp3i79yhjnhps6qpk-hello-2.10"⟩
            meta := { url := str "some/url", compression := some (str "xz")
                      file_hash := some (str "file:hash"), file_size := some 123
                      nar_hash := str "nar:hash", nar_size := 456
                      deriver := some (str "some.drv"), sig := some (str "s:i/g 2")
                      ca := some (str "fixed:hash") }
            references := str "ref1 ref2" } :=
  c6_round_trip _ (by decide) (by decide) (by decide) (by decide) (by decide)
    (by decide) (by decide) (by decide) (by decide) (by decide) (by decide)
    (by decide) (by decide) (by decide) (by decide) (by decide)

/-! ## C5: idempotent nar insertion -/

theorem refEdges_ok {rows : List NarRow} {narId : Nat} :
    ∀ {es : List (Except String Str)}, (∀ e ∈ es, ∃ h, e = .ok h) →
      ∃ l, refEdges rows narId es = .ok l := by
  intro es
  induction es with
  | nil => intro _; exact ⟨[], rfl⟩
  | cons e rest ih =>
    intro he
    obtain ⟨h, rfl⟩ := he e (by simp)
    obtain ⟨l, hl⟩ := ih fun x hx => he x (by simp [hx])
    refine ⟨((rows.filter fun r => r.hash = h).map fun r => (narId, r.id)) ++ l, ?_⟩
    conv_lhs => unfold refEdges
    rw [hl]

set_option linter.unusedVariables false in
/-- C5: inserting a valid fresh Nar `n` whose referenced hashes are
already present (or are the self hash) inserts exactly one row; the
second insertion — in the same batch `[n, n]` or as a second call —
conflicts on the unique key `(store_root, hash, name)`, is skipped,
and leaves the catalog (rows and reference edges) exactly as after the
first insertion; no error is returned. -/
theorem c5_insert_or_ignore_idempotent (cat : Catalog) (st : NarStatus) (n : Nar)
    (hrefs0 : ∀ e ∈ n.ref_hashes, e.toOption.isSome = true)
    (hpresent : ∀ e ∈ n.ref_hashes, ∀ h ∈ e.toOption,
      h = n.store_path.hash_str ∨ ∃ r ∈ cat.nars, r.hash = h)
    (hfresh : (cat.nars.any fun r =>
      r.store_root = n.store_path.root ∧ r.hash = n.store_path.hash_str ∧
        r.name = n.store_path.name) = false) :
    ∃ cat1, insert_or_ignore_nars st cat [n] = .ok cat1 ∧
      insert_or_ignore_nars st cat [n, n] = .ok cat1 ∧
      insert_or_ignore_nars st cat1 [n] = .ok cat1 ∧
      cat1.nars = cat.nars ++ [narRowOf cat.nextNarId st n] := by
  clear hpresent
  have hrefs : ∀ e ∈ n.ref_hashes, ∃ h, e = .ok h := by
    intro e he
    cases e with
    | ok h => exact ⟨h, rfl⟩
    | error msg =>
      have := hrefs0 _ he
      simp [Except.toOption] at this
  obtain ⟨E, hE⟩ :=
    @refEdges_ok (cat.nars ++ [narRowOf cat.nextNarId st n])
      cat.nextNarId n.ref_hashes hrefs
  have hcond : ¬ ((cat.nars.any fun r =>
      decide (r.store_root = n.store_path.root ∧ r.hash = n.store_path.hash_str ∧
        r.name = n.store_path.name)) = true) := by
    rw [hfresh]
    decide
  have h1 : insertOneNar st cat n =
      .ok { cat with
            nextNarId := cat.nextNarId + 1
            nars := cat.nars ++ [narRowOf cat.nextNarId st n]
            nar_refs := cat.nar_refs ++ E } := by
    unfold insertOneNar
    rw [if_neg hcond, hE]
  set cat1 : Catalog :=
    { cat with
      nextNarId := cat.nextNarId + 1
      nars := cat.nars ++ [narRowOf cat.nextNarId st n]
      nar_refs := cat.nar_refs ++ E } with hcat1
  have hmatch : (fun r : NarRow =>
      decide (r.store_root = n.store_path.root ∧ r.hash = n.store_path.hash_str ∧
        r.name = n.store_path.name)) (narRowOf cat.nextNarId st n) = true := by
    simp [narRowOf]
  have h2 : insertOneNar st cat1 n = .ok cat1 := by
    unfold insertOneNar
    rw [if_pos ?hc]
    case hc =>
      rw [List.any_eq_true]
      exact ⟨narRowOf cat.nextNarId st n, by simp [hcat1], hmatch⟩
  refine ⟨cat1, ?_, ?_, ?_, rfl⟩
  · show insert_or_ignore_nars st cat [n] = .ok cat1
    unfold insert_or_ignore_nars
    rw [h1]
    rfl
  · show insert_or_ignore_nars st cat [n, n] = .ok cat1
    unfold insert_or_ignore_nars
    rw [h1]
    show insert_or_ignore_nars st cat1 [n] = .ok cat1
    unfold insert_or_ignore_nars
    rw [h2]
    rfl
  · unfold insert_or_ignore_nars
    rw [h2]
    rfl

/-- C5 (witness): idempotent insertion at a concrete nar with one
self-reference and one already-present reference, into a one-row
catalog. -/
theorem c5_witness :
    ∃ cat1,
      insert_or_ignore_nars .Pending
        ⟨2, [{ id := 1, store_root := str "/nix/store"
               hash := str "11111111111111111111111111111111", name := ['y']
               url := str "u0", compression := none, file_hash := none
               file_size := none, nar_hash := ['h'], nar_size := 1
               deriver := none, sig := none, ca := none, status := .Available }],
         [], 0, [], []⟩
        [{ store_path := ⟨str "/nix/store/00000000000000000000000000000000-x"⟩
           meta := { url := ['u'], compression := none, file_hash := none
                     file_size := none, nar_hash := ['h'], nar_size := 0
                     deriver := none, sig := none, ca := none }
           references := str "00000000000000000000000000000000-x 11111111111111111111111111111111-y" }] =
        .ok cat1 ∧
      insert_or_ignore_nars .Pending
        ⟨2, [{ id := 1, store_root := str "/nix/store"
               hash := str "11111111111111111111111111111111", name := ['y']
               url := str "u0", compression := none, file_hash := none
               file_size := none, nar_hash := ['h'], nar_size := 1
               deriver := none, sig := none, ca := none, status := .Available }],
         [], 0, [], []⟩
        [{ store_path := ⟨str "/nix/store/00000000000000000000000000000000-x"⟩
           meta := { url := ['u'], compression := none, file_hash := none
                     file_size := none, nar_hash := ['h'], nar_size := 0
                     deriver := none, sig := none, ca := none }
           references := str "00000000000000000000000000000000-x 11111111111111111111111111111111-y" },
         { store_path := ⟨str "/nix/store/00000000000000000000000000000000-x"⟩
           meta := { url := ['u'], compression := none, file_hash := none
                     file_size := none, nar_hash := ['h'], nar_size := 0
                     deriver := none, sig := none, ca := none }
           references := str "00000000000000000000000000000000-x 11111111111111111111111111111111-y" }] =
        .ok cat1 ∧
      insert_or_ignore_nars .Pending cat1
        [{ store_path := ⟨str "/nix/store/00000000000000000000000000000000-x"⟩
           meta := { url := ['u'], compression := none, file_hash := none
                     file_size := none, nar_hash := ['h'], nar_size := 0
                     deriver := none, sig := none, ca := none }
           references := str "00000000000000000000000000000000-x 11111111111111111111111111111111-y" }] =
        .ok cat1 := by
  obtain ⟨cat1, ha, hb, hc, _⟩ :=
    c5_insert_or_ignore_idempotent
      (⟨2, [{ id := 1, store_root := str "/nix/store"
              hash := str "11111111111111111111111111111111", name := ['y']
              url := str "u0", compression := none, file_hash := none
              file_size := none, nar_hash := ['h'], nar_size := 1
              deriver := none, sig := none, ca := none, status := .Available }],
        [], 0, [], []⟩ : Catalog)
      .Pending
      ({ store_path := ⟨str "/nix/store/00000000000000000000000000000000-x"⟩
         meta := { url := ['u'], compression := none, file_hash := none
                   file_size := none, nar_hash := ['h'], nar_size := 0
                   deriver := none, sig := none, ca := none }
         references := str "00000000000000000000000000000000-x 11111111111111111111111111111111-y" } : Nar)
      (by decide)
      (by decide)
      (by decide)
  exact ⟨cat1, ha, hb, hc⟩

/-! ## C7: the startup narinfo index -/

theorem try_from_ok_eq {s : Str} {p : StorePath}
    (h : StorePath.try_from s = .ok p) : p = ⟨s⟩ := by
  unfold StorePath.try_from at h
  split_ifs at h
  injection h with h1
  exact h1.symm

theorem slice_append_stable {buf t : Str} {a b : Nat} (hb : b ≤ buf.length) :
    (((buf ++ t).drop a).take (b - a)) = ((buf.drop a).take (b - a)) := by
  rcases le_or_lt a buf.length with ha | ha
  · rw [List.drop_append_eq_append_drop]
    rw [List.take_append_of_le_length]
    rw [List.length_drop]
    omega
  · have hba : b - a = 0 := by omega
    rw [hba, List.take_zero, List.take_zero]

theorem find?_filter_ne {β : Type} {l : List (Str × β)} {k k' : Str} (hne : k' ≠ k) :
    (l.filter fun p => p.1 ≠ k).find? (fun p => p.1 = k') =
      l.find? (fun p => p.1 = k') := by
  induction l with
  | nil => rfl
  | cons x t ih =>
    by_cases hx : x.1 = k
    · rw [List.filter_cons_of_neg (by simp [hx])]
      rw [ih]
      rw [List.find?_cons_of_neg _ (by simp [hx]; exact Ne.symm hne)]
    · rw [List.filter_cons_of_pos (by simp [hx])]
      by_cases hx' : x.1 = k'
      · rw [List.find?_cons_of_pos _ (by simp [hx']),
          List.find?_cons_of_pos _ (by simp [hx'])]
      · rw [List.find?_cons_of_neg _ (by simp [hx']),
          List.find?_cons_of_neg _ (by simp [hx']), ih]

theorem rowToNar_ok_path {cat : Catalog} {r : NarRow} {i : Nat} {nar : Nar}
    (h : rowToNar cat r = .ok (i, nar)) :
    i = r.id ∧ nar.store_path.path = r.store_root ++ '/' :: r.hash ++ '-' :: r.name := by
  unfold rowToNar at h
  split at h
  · exact absurd h (by simp)
  · next sp hsp =>
    injection h with h1
    rw [Prod.mk.injEq] at h1
    obtain ⟨hi, hn⟩ := h1
    subst hi
    subst hn
    exact ⟨rfl, by rw [try_from_ok_eq hsp]⟩

theorem rowToNar_ok_hash {cat : Catalog} {r : NarRow} {i : Nat} {nar : Nar}
    (hroot : r.store_root = str "/nix/store") (hlen : r.hash.length = 32)
    (h : rowToNar cat r = .ok (i, nar)) :
    nar.store_path.hash = r.hash := by
  obtain ⟨_, hpath⟩ := rowToNar_ok_path h
  show nar.store_path.hash_str = r.hash
  unfold StorePath.hash_str
  rw [hpath, hroot]
  have hshape : str "/nix/store" ++ '/' :: r.hash ++ '-' :: r.name =
      str "/nix/store/" ++ (r.hash ++ '-' :: r.name) := rfl
  rw [hshape]
  have hdrop := List.drop_left (str "/nix/store/") (r.hash ++ '-' :: r.name)
  rw [show (str "/nix/store/").length = 11 from rfl] at hdrop
  rw [hdrop, ← hlen, List.take_left]

theorem cacheStep_eq (st : NarInfoCache) (n : Nar) :
    cacheStep st n =
      { buf := st.buf ++ (rewriteUrl n).format_nar_info
        cache := (n.store_path.hash,
            { start := st.buf.length
              stop := st.buf.length + (rewriteUrl n).format_nar_info.length
              file_size := n.meta.file_size.getD n.meta.nar_size }) ::
          st.cache.filter fun p => p.1 ≠ n.store_path.hash } := rfl

theorem rowToNar_ok_sizes {cat : Catalog} {r : NarRow} {i : Nat} {nar : Nar}
    (h : rowToNar cat r = .ok (i, nar)) :
    nar.meta.file_size = r.file_size ∧ nar.meta.nar_size = r.nar_size := by
  unfold rowToNar at h
  split at h
  · exact absurd h (by simp)
  · injection h with h1
    rw [Prod.mk.injEq] at h1
    rw [← h1.2]
    exact ⟨rfl, rfl⟩

theorem cacheStep_inv {cat : Catalog} {st : NarInfoCache} {rows : List NarRow}
    {r : NarRow} {nar : Nar}
    (hroot : r.store_root = str "/nix/store") (hlen : r.hash.length = 32)
    (hnar : rowToNar cat r = .ok (r.id, nar))
    (hinv : CacheInv cat st rows) :
    CacheInv cat (cacheStep st nar) (rows ++ [r]) := by
  have hkey : nar.store_path.hash = r.hash := rowToNar_ok_hash hroot hlen hnar
  have hfsz := rowToNar_ok_sizes hnar
  rw [cacheStep_eq]
  constructor
  · intro pr hpr
    simp only [List.mem_cons] at hpr
    rcases hpr with rfl | hpr
    · refine ⟨by simp, by simp, r, by simp, by simp [hkey], nar, hnar, ?_, ?_⟩
      · show (((st.buf ++ (rewriteUrl nar).format_nar_info).drop st.buf.length).take
          (st.buf.length + (rewriteUrl nar).format_nar_info.length - st.buf.length)) =
          (rewriteUrl nar).format_nar_info
        rw [Nat.add_sub_cancel_left, List.drop_left, List.take_length]
      · show (nar.meta.file_size.getD nar.meta.nar_size : Nat) =
          r.file_size.getD r.nar_size
        rw [hfsz.1, hfsz.2]
    · rw [List.mem_filter] at hpr
      obtain ⟨h1, h2, r2, hr2mem, hr2h, nar2, hnar2, hslice, hfs2⟩ := hinv.1 pr hpr.1
      refine ⟨h1, by simp; omega, r2, by simp [hr2mem], hr2h, nar2, hnar2, ?_, hfs2⟩
      show (((st.buf ++ (rewriteUrl nar).format_nar_info).drop pr.2.start).take
        (pr.2.stop - pr.2.start)) = (rewriteUrl nar2).format_nar_info
      rw [slice_append_stable h2, hslice]
  · intro r' hr'
    simp only [List.mem_append, List.mem_singleton] at hr'
    rcases hr' with hr' | rfl
    · obtain ⟨pr, hprmem, hprk⟩ := hinv.2 r' hr'
      by_cases hk : pr.1 = nar.store_path.hash
      · refine ⟨(nar.store_path.hash,
          { start := st.buf.length
            stop := st.buf.length + (rewriteUrl nar).format_nar_info.length
            file_size := nar.meta.file_size.getD nar.meta.nar_size }), by simp, ?_⟩
        show nar.store_path.hash = r'.hash
        rw [← hprk, hk]
      · exact ⟨pr, by simp [List.mem_filter, hprmem, hk], hprk⟩
    · refine ⟨(nar.store_path.hash,
        { start := st.buf.length
          stop := st.buf.length + (rewriteUrl nar).format_nar_info.length
          file_size := nar.meta.file_size.getD nar.meta.nar_size }), by simp, ?_⟩
      show nar.store_path.hash = r'.hash
      rw [hkey]

theorem cacheFold_inv (cat : Catalog) :
    ∀ (rs : List NarRow) (ps : List (Nat × Nar)) (st : NarInfoCache)
      (rows : List NarRow),
      rowsToNars cat rs = .ok ps →
      (∀ r ∈ rs, r.store_root = str "/nix/store" ∧ r.hash.length = 32) →
      CacheInv cat st rows →
      CacheInv cat (ps.foldl (fun s p => cacheStep s p.2) st) (rows ++ rs) := by
  intro rs
  induction rs with
  | nil =>
    intro ps st rows h hwf hinv
    have hps : ps = [] := by
      simp only [rowsToNars] at h
      injection h with h1
      exact h1.symm
    subst hps
    simpa using hinv
  | cons r rest ih =>
    intro ps st rows h hwf hinv
    cases hr : rowToNar cat r with
    | error e => simp [rowsToNars, hr] at h
    | ok p =>
      cases hrest : rowsToNars cat rest with
      | error e => simp [rowsToNars, hr, hrest] at h
      | ok ps' =>
        have hps : ps = p :: ps' := by
          simp only [rowsToNars, hr, hrest] at h
          injection h with h1
          exact h1.symm
        subst hps
        obtain ⟨i, nar⟩ := p
        have hi : i = r.id := (rowToNar_ok_path hr).1
        subst hi
        have hstep := cacheStep_inv (hwf r (by simp)).1 (hwf r (by simp)).2 hr hinv
        have hres := ih ps' (cacheStep st nar) (rows ++ [r]) hrest
          (fun x hx => hwf x (by simp [hx])) hstep
        simpa using hres

/-- C7: the startup index contains exactly the `Available` artifacts:
`get_file_size` answers exactly for `Available` rows' hashes with
`file_size` falling back to `nar_size`; `get_info` answers exactly the
rendered narinfo text of the row's rebuilt nar with its url rewritten
to `nar/<hash>`; `Pending` / `Trashed` rows are absent (no row outside
`Available` can witness a hit); and any key whose length is not 32
misses both lookups.  (Stated for catalogs whose rows have the
canonical store root, 32-byte hashes, and pairwise distinct `Available`
hashes — the identity-by-content-hash premise of the data model.) -/
theorem c7_nar_info_cache (cat : Catalog) (c : NarInfoCache)
    (hwf : ∀ r ∈ cat.nars, r.status = .Available →
      r.store_root = str "/nix/store" ∧ r.hash.length = 32)
    (hnodup : ((cat.nars.filter fun r => r.status = .Available).map (·.hash)).Nodup)
    (hinit : NarInfoCache.init cat = .ok c) :
    (∀ h n, c.get_file_size h = some n ↔
      ∃ r ∈ cat.nars, r.status = .Available ∧ r.hash = h ∧
        n = r.file_size.getD r.nar_size) ∧
    (∀ h s, c.get_info h = some s ↔
      ∃ r ∈ cat.nars, r.status = .Available ∧ r.hash = h ∧
        ∃ nar, rowToNar cat r = .ok (r.id, nar) ∧
          s = (rewriteUrl nar).format_nar_info) ∧
    (∀ h, h.length ≠ 32 → c.get_info h = none ∧ c.get_file_size h = none) := by
  unfold NarInfoCache.init at hinit
  cases hsel : select_all_nar cat .Available with
  | error e => rw [hsel] at hinit; exact absurd hinit (by simp)
  | ok ps =>
    rw [hsel] at hinit
    injection hinit with hc
    have hfold := cacheFold_inv cat (cat.nars.filter fun r => r.status = .Available)
      ps ⟨[], []⟩ [] hsel
      (fun r hr => by
        rw [List.mem_filter] at hr
        exact hwf r hr.1 (by simpa using hr.2))
      (by exact ⟨fun pr hpr => absurd hpr (by simp), fun r hr => absurd hr (by simp)⟩)
    rw [List.nil_append, hc] at hfold
    have havail : ∀ r, r ∈ (cat.nars.filter fun x => x.status = .Available) ↔
        (r ∈ cat.nars ∧ r.status = .Available) := by
      intro r
      rw [List.mem_filter]
      simp
    have hinj : ∀ r1 ∈ (cat.nars.filter fun x => x.status = .Available),
        ∀ r2 ∈ (cat.nars.filter fun x => x.status = .Available),
        r1.hash = r2.hash → r1 = r2 :=
      fun r1 h1 r2 h2 he => List.inj_on_of_nodup_map hnodup h1 h2 he
    refine ⟨?_, ?_, ?_⟩
    · intro h n
      constructor
      · intro hsome
        unfold NarInfoCache.get_file_size at hsome
        split_ifs at hsome with hlen32
        cases hfind : c.cache.find? fun p => p.1 = h with
        | none => rw [hfind] at hsome; exact absurd hsome (by simp)
        | some pr =>
          rw [hfind] at hsome
          have hn : n = pr.2.file_size := by
            injection hsome with h1
            exact h1.symm
          have hpr1 : pr.1 = h := by
            have := List.find?_some hfind
            simpa using this
          obtain ⟨_, _, r, hrmem, hrh, _, _, _, hfs⟩ :=
            hfold.1 pr (List.mem_of_find?_eq_some hfind)
          rw [havail] at hrmem
          exact ⟨r, hrmem.1, hrmem.2, by rw [hrh, hpr1], by rw [hn, hfs]⟩
      · rintro ⟨r, hrmem, hrst, hrh, hn⟩
        have hravail : r ∈ cat.nars.filter fun x => x.status = .Available :=
          (havail r).mpr ⟨hrmem, hrst⟩
        obtain ⟨pr, hprmem, hprk⟩ := hfold.2 r hravail
        have hfindSome : (c.cache.find? fun p => p.1 = h).isSome :=
          List.find?_isSome.mpr ⟨pr, hprmem, by simp [hprk, hrh]⟩
        obtain ⟨pr', hfind⟩ := Option.isSome_iff_exists.mp hfindSome
        have hpr1 : pr'.1 = h := by
          have := List.find?_some hfind
          simpa using this
        obtain ⟨_, _, r', hr'mem, hr'h, _, _, _, hfs'⟩ :=
          hfold.1 pr' (List.mem_of_find?_eq_some hfind)
        have hrr : r' = r := hinj r' hr'mem r hravail (by rw [hr'h, hpr1, hrh])
        unfold NarInfoCache.get_file_size
        rw [if_neg (by rw [← hrh]; simp [(hwf r hrmem hrst).2]), hfind]
        simp only [Option.map_some']
        rw [hfs', hrr, ← hn]
    · intro h s
      constructor
      · intro hsome
        unfold NarInfoCache.get_info at hsome
        split_ifs at hsome with hlen32
        cases hfind : c.cache.find? fun p => p.1 = h with
        | none => rw [hfind] at hsome; exact absurd hsome (by simp)
        | some pr =>
          rw [hfind] at hsome
          have hs : s = (c.buf.drop pr.2.start).take (pr.2.stop - pr.2.start) := by
            injection hsome with h1
            exact h1.symm
          have hpr1 : pr.1 = h := by
            have := List.find?_some hfind
            simpa using this
          obtain ⟨_, _, r, hrmem, hrh, nar, hnar, hslice, _⟩ :=
            hfold.1 pr (List.mem_of_find?_eq_some hfind)
          rw [havail] at hrmem
          exact ⟨r, hrmem.1, hrmem.2, by rw [hrh, hpr1], nar, hnar,
            by rw [hs, hslice]⟩
      · rintro ⟨r, hrmem, hrst, hrh, nar, hnar, hs⟩
        have hravail : r ∈ cat.nars.filter fun x => x.status = .Available :=
          (havail r).mpr ⟨hrmem, hrst⟩
        obtain ⟨pr, hprmem, hprk⟩ := hfold.2 r hravail
        have hfindSome : (c.cache.find? fun p => p.1 = h).isSome :=
          List.find?_isSome.mpr ⟨pr, hprmem, by simp [hprk, hrh]⟩
        obtain ⟨pr', hfind⟩ := Option.isSome_iff_exists.mp hfindSome
        have hpr1 : pr'.1 = h := by
          have := List.find?_some hfind
          simpa using this
        obtain ⟨_, _, r', hr'mem, hr'h, nar', hnar', hslice', _⟩ :=
          hfold.1 pr' (List.mem_of_find?_eq_some hfind)
        have hrr : r' = r := hinj r' hr'mem r hravail (by rw [hr'h, hpr1, hrh])
        have hnn : nar' = nar := by
          rw [hrr] at hnar'
          rw [hnar] at hnar'
          injection hnar' with h1
          rw [Prod.mk.injEq] at h1
          exact h1.2.symm
        unfold NarInfoCache.get_info
        rw [if_neg (by rw [← hrh]; simp [(hwf r hrmem hrst).2]), hfind]
        simp only [Option.map_some']
        rw [hslice', hnn, ← hs]
    · intro h hlen
      unfold NarInfoCache.get_info NarInfoCache.get_file_size
      rw [if_pos hlen, if_pos hlen]
      exact ⟨rfl, rfl⟩

/-- C7 (witness): on a two-row catalog (one `Available` artifact without
`file_size`, one `Pending`), the index serves the available hash with
its `nar_size` as file size and misses a key of the wrong length. -/
theorem c7_witness :
    ∃ c, NarInfoCache.init
      (⟨3, [{ id := 1, store_root := str "/nix/store"
              hash := str "00000000000000000000000000000000", name := ['x']
              url := str "u", compression := none, file_hash := none
              file_size := none, nar_hash := ['h'], nar_size := 7
              deriver := none, sig := none, ca := none, status := .Available },
            { id := 2, store_root := str "/nix/store"
              hash := str "11111111111111111111111111111111", name := ['y']
              url := str "v", compression := none, file_hash := none
              file_size := none, nar_hash := ['h'], nar_size := 9
              deriver := none, sig := none, ca := none, status := .Pending }],
        [(1, 1)], 0, [], []⟩ : Catalog) = .ok c ∧
      c.get_file_size (str "00000000000000000000000000000000") = some 7 ∧
      c.get_info (str "bad") = none := by
  obtain ⟨c, hc⟩ : ∃ c, NarInfoCache.init
      (⟨3, [{ id := 1, store_root := str "/nix/store"
              hash := str "00000000000000000000000000000000", name := ['x']
              url := str "u", compression := none, file_hash := none
              file_size := none, nar_hash := ['h'], nar_size := 7
              deriver := none, sig := none, ca := none, status := .Available },
            { id := 2, store_root := str "/nix/store"
              hash := str "11111111111111111111111111111111", name := ['y']
              url := str "v", compression := none, file_hash := none
              file_size := none, nar_hash := ['h'], nar_size := 9
              deriver := none, sig := none, ca := none, status := .Pending }],
        [(1, 1)], 0, [], []⟩ : Catalog) = .ok c := ⟨_, rfl⟩
  have H := c7_nar_info_cache _ c (by decide) (by decide) hc
  refine ⟨c, hc, (H.1 _ 7).mpr ?_, (H.2.2 (str "bad") (by decide)).1⟩
  refine ⟨{ id := 1, store_root := str "/nix/store"
            hash := str "00000000000000000000000000000000", name := ['x']
            url := str "u", compression := none, file_hash := none
            file_size := none, nar_hash := ['h'], nar_size := 7
            deriver := none, sig := none, ca := none, status := .Available },
    by decide, by decide, by decide, by decide⟩

/-! ## C3: all-or-nothing channel ingestion -/

/-- C3: if the channel phase fails (invalid git revision, a failed
fetch, or the `RevisionMismatch` check) or the recursive fetch phase
fails (any upstream narinfo fetch or parse failure, a reference parse
failure, or the final `finished = total` check), then
`add_nix_channel_rec` returns an error and the catalog is returned
exactly as it was: no nar rows, no reference edges, no Root row and no
pinning edges are persisted, because every catalog write happens in
the commit phase and the root insertion, both of which run only after
these checks have passed. -/
theorem c3_ingest_all_or_nothing (f : ChannelFetches) (ov : Option Str)
    (channel_url fetch_time : Str) (oracle : Str → Except String Str)
    (fuel : Nat) (cat : Catalog) :
    (∀ e, get_nix_channel f ov = .error e →
      add_nix_channel_rec f ov channel_url fetch_time oracle fuel cat =
        (.error (), cat)) ∧
    (∀ info u, get_nix_channel f ov = .ok info →
      fetch_all oracle cat (info.root_paths.map (·.hash)) fuel = .error u →
      add_nix_channel_rec f ov channel_url fetch_time oracle fuel cat =
        (.error u, cat)) := by
  constructor
  · intro e he
    unfold add_nix_channel_rec
    rw [he]
  · intro info u hi hf
    simp only [add_nix_channel_rec, fetch_meta_rec, hi, hf]

/-- C3 (witness): a concrete run whose first `git-revision` fetch
fails leaves a concrete one-row catalog untouched. -/
theorem c3_witness :
    add_nix_channel_rec
      ⟨.error "connection refused", .ok (str "https://cache.example"),
        .ok [], .error "connection refused"⟩
      none (str "https://channel.example") (str "2026-10-12T00:00:00Z")
      (fun _ => .error "unused") 5
      (⟨2, [{ id := 1, store_root := str "/nix/store"
              hash := str "00000000000000000000000000000000", name := ['x']
              url := str "u", compression := none, file_hash := none
              file_size := none, nar_hash := ['h'], nar_size := 7
              deriver := none, sig := none, ca := none, status := .Available }],
        [(1, 1)], 0, [], []⟩ : Catalog) =
      ((.error (),
        ⟨2, [{ id := 1, store_root := str "/nix/store"
               hash := str "00000000000000000000000000000000", name := ['x']
               url := str "u", compression := none, file_hash := none
               file_size := none, nar_hash := ['h'], nar_size := 7
               deriver := none, sig := none, ca := none, status := .Available }],
         [(1, 1)], 0, [], []⟩) : Except Unit Nat × Catalog) :=
  (c3_ingest_all_or_nothing
    ⟨.error "connection refused", .ok (str "https://cache.example"),
      .ok [], .error "connection refused"⟩
    none (str "https://channel.example") (str "2026-10-12T00:00:00Z")
    (fun _ => .error "unused") 5 _).1 "connection refused" rfl

/-! ## C4: commit order is reverse topological -/

theorem keysA_cons {β : Type} (p : Str × β) (rest : List (Str × β)) :
    keysA (p :: rest) = p.1 :: keysA rest := rfl

theorem lookupA_cons_self {β : Type} {p : Str × β} {rest : List (Str × β)}
    {k : Str} (h : p.1 = k) : lookupA (p :: rest) k = some p.2 := by
  unfold lookupA
  rw [List.find?_cons_of_pos _ (by simp [h])]
  rfl

theorem lookupA_cons_ne {β : Type} {p : Str × β} {rest : List (Str × β)}
    {k : Str} (h : ¬ p.1 = k) : lookupA (p :: rest) k = lookupA rest k := by
  unfold lookupA
  rw [List.find?_cons_of_neg _ (by simp [h])]

theorem lookupA_mem {β : Type} {m : List (Str × β)} {k : Str} {v : β}
    (h : lookupA m k = some v) : (k, v) ∈ m := by
  unfold lookupA at h
  cases hf : m.find? fun p => p.1 = k with
  | none => rw [hf] at h; cases h
  | some p =>
    rw [hf] at h
    simp only [Option.map_some'] at h
    have hk0 := List.find?_some hf
    have hk : p.1 = k := of_decide_eq_true hk0
    have hm := List.mem_of_find?_eq_some hf
    obtain ⟨p1, p2⟩ := p
    have hk' : p1 = k := hk
    have h' : p2 = v := Option.some.inj h
    subst hk'
    subst h'
    exact hm

theorem mem_lookupA {β : Type} : ∀ {m : List (Str × β)}, (keysA m).Nodup →
    ∀ {k : Str} {v : β}, (k, v) ∈ m → lookupA m k = some v := by
  intro m
  induction m with
  | nil => intro _ k v h; cases h
  | cons p rest ih =>
    intro hnd k v h
    rw [keysA_cons, List.nodup_cons] at hnd
    rcases List.mem_cons.mp h with h | h
    · rw [← h]
      exact lookupA_cons_self rfl
    · by_cases hpk : p.1 = k
      · exfalso
        apply hnd.1
        rw [hpk]
        exact List.mem_map.mpr ⟨(k, v), h, rfl⟩
      · rw [lookupA_cons_ne hpk]
        exact ih hnd.2 h

theorem lookupA_isSome {β : Type} {m : List (Str × β)} {k : Str}
    (h : k ∈ keysA m) : ∃ v, lookupA m k = some v := by
  obtain ⟨p, hp, hpk⟩ := List.mem_map.mp h
  have h1 : (m.find? fun p => p.1 = k).isSome := by
    rw [List.find?_isSome]
    exact ⟨p, hp, by simp [hpk]⟩
  obtain ⟨p', hp'⟩ := Option.isSome_iff_exists.mp h1
  exact ⟨p'.2, by unfold lookupA; rw [hp']; rfl⟩

theorem keysA_setA {β : Type} (m : List (Str × β)) (k : Str) (v : β) :
    keysA (setA m k v) = keysA m := by
  induction m with
  | nil => rfl
  | cons p rest ih =>
    show ((if p.1 = k then (k, v) else p).1 :: keysA (setA rest k v))
        = p.1 :: keysA rest
    rw [ih]
    by_cases hpk : p.1 = k
    · rw [if_pos hpk, hpk]
    · rw [if_neg hpk]

theorem lookupA_setA_self {β : Type} : ∀ {m : List (Str × β)} {k : Str},
    k ∈ keysA m → ∀ v : β, lookupA (setA m k v) k = some v := by
  intro m
  induction m with
  | nil => intro k h; cases h
  | cons p rest ih =>
    intro k h v
    rw [keysA_cons] at h
    show lookupA ((if p.1 = k then (k, v) else p) :: setA rest k v) k = some v
    by_cases hpk : p.1 = k
    · rw [if_pos hpk]
      exact lookupA_cons_self rfl
    · rw [if_neg hpk, lookupA_cons_ne hpk]
      rcases List.mem_cons.mp h with h | h
      · exact absurd h.symm hpk
      · exact ih h v

theorem lookupA_setA_ne {β : Type} : ∀ (m : List (Str × β)) {k k' : Str},
    ¬ k' = k → ∀ v : β, lookupA (setA m k v) k' = lookupA m k' := by
  intro m
  induction m with
  | nil => intro k k' _ v; rfl
  | cons p rest ih =>
    intro k k' hne v
    show lookupA ((if p.1 = k then (k, v) else p) :: setA rest k v) k'
        = lookupA (p :: rest) k'
    by_cases hpk : p.1 = k
    · rw [if_pos hpk]
      rw [lookupA_cons_ne (show ¬ (k, v).1 = k' from fun h => hne h.symm)]
      rw [lookupA_cons_ne (show ¬ p.1 = k' from by rw [hpk]; exact fun h => hne h.symm)]
      exact ih hne v
    · rw [if_neg hpk]
      by_cases hpk' : p.1 = k'
      · rw [lookupA_cons_self hpk', lookupA_cons_self hpk']
      · rw [lookupA_cons_ne hpk', lookupA_cons_ne hpk']
        exact ih hne v

theorem mem_setA {β : Type} {m : List (Str × β)} {k : Str} {v : β} {p : Str × β}
    (h : p ∈ setA m k v) : p = (k, v) ∨ p ∈ m := by
  obtain ⟨p0, hp0, heq⟩ := List.mem_map.mp h
  by_cases hk : p0.1 = k
  · left
    rw [← heq, if_pos hk]
  · right
    rw [← heq, if_neg hk]
    exact hp0

theorem unprocCount_cons (p : Str × List Str) (E : List (Str × List Str))
    (P : List Str) (b : Str) :
    unprocCount (p :: E) P b
      = (if p.1 ∈ P then 0 else p.2.count b) + unprocCount E P b := rfl

theorem unprocCount_nil_P : ∀ (E : List (Str × List Str)) (b : Str),
    unprocCount E [] b = countEdges E b := by
  intro E b
  induction E with
  | nil => rfl
  | cons p rest ih =>
    rw [unprocCount_cons, if_neg (List.not_mem_nil p.1), ih]
    simp [countEdges]

theorem unprocCount_congr {c : Str} : ∀ {E : List (Str × List Str)},
    (∀ p ∈ E, ¬ p.1 = c) → ∀ (P : List Str) (b : Str),
    unprocCount E (P ++ [c]) b = unprocCount E P b := by
  intro E
  induction E with
  | nil => intro _ _ _; rfl
  | cons p rest ih =>
    intro hne P b
    rw [unprocCount_cons, unprocCount_cons]
    rw [ih (fun x hx => hne x (List.mem_cons_of_mem p hx)) P b]
    have hiff : (p.1 ∈ P ++ [c]) ↔ (p.1 ∈ P) := by
      rw [List.mem_append, List.mem_singleton]
      constructor
      · rintro (h | h)
        · exact h
        · exact absurd h (hne p (List.mem_cons_self p rest))
      · exact Or.inl
    by_cases hmem : p.1 ∈ P
    · rw [if_pos hmem, if_pos (hiff.mpr hmem)]
    · rw [if_neg hmem, if_neg (fun h => hmem (hiff.mp h))]

theorem unprocCount_split {c : Str} {ns : List Str} :
    ∀ {E : List (Str × List Str)}, (keysA E).Nodup → lookupA E c = some ns →
    ∀ {P : List Str}, c ∉ P → ∀ (b : Str),
    unprocCount E P b = ns.count b + unprocCount E (P ++ [c]) b := by
  intro E
  induction E with
  | nil =>
    intro _ h
    simp [lookupA] at h
  | cons p rest ih =>
    intro hnd hlk P hcP b
    rw [keysA_cons, List.nodup_cons] at hnd
    by_cases hpk : p.1 = c
    · have hns : p.2 = ns := by
        rw [lookupA_cons_self hpk] at hlk
        exact Option.some.inj hlk
      have hcrest : ∀ x ∈ rest, ¬ x.1 = c := by
        intro x hx hx1
        apply hnd.1
        rw [hpk, ← hx1]
        exact List.mem_map.mpr ⟨x, hx, rfl⟩
      rw [unprocCount_cons, unprocCount_cons]
      rw [unprocCount_congr hcrest P b]
      have h1 : p.1 ∉ P := fun h => hcP (by rwa [hpk] at h)
      have h2 : p.1 ∈ P ++ [c] :=
        List.mem_append.mpr (Or.inr (by rw [hpk]; exact List.mem_singleton_self c))
      rw [if_neg h1, if_pos h2, hns]
      omega
    · rw [lookupA_cons_ne hpk] at hlk
      rw [unprocCount_cons, unprocCount_cons]
      rw [ih hnd.2 hlk hcP b]
      have hiff : (p.1 ∈ P ++ [c]) ↔ (p.1 ∈ P) := by
        rw [List.mem_append, List.mem_singleton]
        constructor
        · rintro (h | h)
          · exact h
          · exact absurd h hpk
        · exact Or.inl
      by_cases hmem : p.1 ∈ P
      · rw [if_pos hmem, if_pos (hiff.mpr hmem)]
        omega
      · rw [if_neg hmem, if_neg (fun h => hmem (hiff.mp h))]
        omega

theorem unprocCount_zero : ∀ {E : List (Str × List Str)} {P : List Str} {b : Str},
    unprocCount E P b = 0 → ∀ p ∈ E, p.1 ∉ P → p.2.count b = 0 := by
  intro E
  induction E with
  | nil => intro P b _ p hp; cases hp
  | cons x rest ih =>
    intro P b h0 p hp hnotin
    rw [unprocCount_cons] at h0
    rcases List.mem_cons.mp hp with hp | hp
    · subst hp
      rw [if_neg hnotin] at h0
      omega
    · exact ih (by omega) p hp hnotin

theorem edgeB_exists {E : List (Str × List Str)} {a b : Str}
    (h : edgeB E a b = true) : ∃ l, lookupA E a = some l ∧ b ∈ l := by
  unfold edgeB at h
  cases hlk : lookupA E a with
  | none => rw [hlk] at h; cases h
  | some l =>
    rw [hlk] at h
    exact ⟨l, rfl, List.mem_of_elem_eq_true h⟩

theorem edge_src_mem_keys {E : List (Str × List Str)} {a b : Str}
    (h : edgeB E a b = true) : a ∈ keysA E := by
  obtain ⟨l, hlk, _⟩ := edgeB_exists h
  exact List.mem_map.mpr ⟨(a, l), lookupA_mem hlk, rfl⟩

theorem countEdges_pos {E : List (Str × List Str)} {a b : Str}
    (h : edgeB E a b = true) : 0 < countEdges E b := by
  obtain ⟨l, hlk, hb⟩ := edgeB_exists h
  have h1 : l.count b ∈ E.map fun p => p.2.count b :=
    List.mem_map.mpr ⟨(a, l), lookupA_mem hlk, rfl⟩
  have h2 : l.count b ≤ countEdges E b := List.le_sum_of_mem h1
  have h3 : l.count b ≠ 0 := fun hc => (List.count_eq_zero.mp hc) hb
  omega

theorem mem_of_unprocCount_zero {E : List (Str × List Str)} {P : List Str}
    {a b : Str} (h0 : unprocCount E P b = 0) (h : edgeB E a b = true) :
    a ∈ P := by
  obtain ⟨l, hlk, hb⟩ := edgeB_exists h
  by_contra hnotin
  have hc := unprocCount_zero h0 (a, l) (lookupA_mem hlk) hnotin
  exact (List.count_eq_zero.mp hc) hb

theorem mem_take_mono {l : List Str} {a : Str} {m m' : Nat} (hle : m ≤ m')
    (h : a ∈ l.take m) : a ∈ l.take m' := by
  have heq : l.take m = (l.take m').take m := by
    rw [List.take_take, Nat.min_eq_left hle]
  rw [heq] at h
  exact List.take_subset _ _ h

theorem not_mem_take_self {l : List Str} (hnd : l.Nodup) {n : Nat}
    (hn : n < l.length) : l.get ⟨n, hn⟩ ∉ l.take n := by
  intro hmem
  have hnd' : (l.take n ++ l.drop n).Nodup := by
    rw [List.take_append_drop]
    exact hnd
  rw [List.drop_eq_getElem_cons hn] at hnd'
  rw [List.nodup_append] at hnd'
  exact hnd'.2.2 hmem (List.mem_cons_self _ _)

theorem take_succ_get {l : List Str} {n : Nat} (hn : n < l.length) :
    l.take (n + 1) = l.take n ++ [l.get ⟨n, hn⟩] := by
  rw [List.take_succ]
  rw [List.getElem?_eq_getElem hn]
  rfl

theorem get_append_left {β : Type} {l : List β} (t : List β) {j : Nat}
    (h : j < l.length) {h2 : j < (l ++ t).length} :
    (l ++ t).get ⟨j, h2⟩ = l.get ⟨j, h⟩ := by
  induction l generalizing j with
  | nil => cases h
  | cons x xs ih =>
    cases j with
    | zero => rfl
    | succ n => exact ih (Nat.lt_of_succ_lt_succ h)

theorem get_append_length {β : Type} (l : List β) (b : β)
    (h : l.length < (l ++ [b]).length) : (l ++ [b]).get ⟨l.length, h⟩ = b := by
  induction l with
  | nil => rfl
  | cons x xs ih => exact ih (by simp)

theorem sublist_of_take_mem {l : List Str} {a b : Str} {j : Nat}
    (hj : j < l.length) (hb : l.get ⟨j, hj⟩ = b) (ha : a ∈ l.take j) :
    List.Sublist [a, b] l := by
  have h1 : List.Sublist [a] (l.take j) := List.singleton_sublist.mpr ha
  have h2 : List.Sublist [b] (l.drop j) := by
    refine List.singleton_sublist.mpr ?_
    rw [← hb, List.drop_eq_getElem_cons hj]
    exact List.mem_cons_self _ _
  have h3 := List.Sublist.append h1 h2
  rw [List.take_append_drop] at h3
  exact h3

theorem mem_of_complete {q ks : List Str} (hnd : q.Nodup)
    (hsub : ∀ v ∈ q, v ∈ ks) (hlen : ks.length ≤ q.length) {b : Str}
    (hb : b ∈ ks) : b ∈ q := by
  have h1 : q.toFinset.card = q.length := List.toFinset_card_of_nodup hnd
  have h2 : q.toFinset ⊆ ks.toFinset := by
    intro x hx
    rw [List.mem_toFinset] at hx ⊢
    exact hsub x hx
  have h3 : ks.toFinset.card ≤ ks.length := ks.toFinset_card_le
  have heq : q.toFinset = ks.toFinset :=
    Finset.eq_of_subset_of_card_le h2 (by omega)
  have hbf : b ∈ ks.toFinset := List.mem_toFinset.mpr hb
  rw [← heq] at hbf
  exact List.mem_toFinset.mp hbf

theorem processNb_nil (inds : List (Str × Nat)) (q : List Str) :
    processNb inds q [] = .ok (inds, q) := rfl

theorem processNb_cons {inds : List (Str × Nat)} (q : List Str) {b : Str}
    (rest : List Str) {p0 : Nat} (h : lookupA inds b = some p0) :
    processNb inds q (b :: rest) =
      processNb (setA inds b (p0 - 1)) (if p0 - 1 = 0 then q ++ [b] else q)
        rest := by
  conv_lhs => rw [processNb]
  rw [h]

theorem topoLoop_zero (E : List (Str × List Str)) (inds : List (Str × Nat))
    (q : List Str) (lpos : Nat) : topoLoop E inds q lpos 0 = .ok q := rfl

theorem topoLoop_succ_step {E : List (Str × List Str)}
    {inds inds1 : List (Str × Nat)} {q q1 : List Str} {lpos fuel : Nat}
    {ns : List Str} (h : lpos < q.length)
    (hE : lookupA E (q.get ⟨lpos, h⟩) = some ns)
    (hp : processNb inds q ns = .ok (inds1, q1)) :
    topoLoop E inds q lpos (fuel + 1) = topoLoop E inds1 q1 (lpos + 1) fuel := by
  conv_lhs => rw [topoLoop]
  rw [dif_pos h, hE]
  dsimp only
  rw [hp]

theorem topoLoop_succ_ge {E : List (Str × List Str)} {inds : List (Str × Nat)}
    {q : List Str} {lpos fuel : Nat} (h : ¬ lpos < q.length) :
    topoLoop E inds q lpos (fuel + 1) = .ok q := by
  conv_lhs => rw [topoLoop]
  rw [dif_neg h]

theorem processNb_mid (E : List (Str × List Str)) (q0 : List Str) (lpos : Nat)
    (hlpos : lpos < q0.length) :
    ∀ (ns : List Str) (inds : List (Str × Nat)) (q : List Str),
      (∀ b ∈ ns, b ∈ keysA E) →
      (∃ ext, q = q0 ++ ext) →
      q.Nodup →
      (∀ v ∈ q, v ∈ keysA E) →
      keysA inds = keysA E →
      (∀ b ∈ keysA E, lookupA inds b =
        some (ns.count b + unprocCount E (q0.take (lpos + 1)) b)) →
      (∀ b ∈ q, ns.count b + unprocCount E (q0.take (lpos + 1)) b = 0) →
      (∀ (j : Nat) (hj : j < q.length), ∀ a,
        edgeB E a (q.get ⟨j, hj⟩) = true → a ∈ q.take (min j (lpos + 1))) →
      ∃ inds1 q1, processNb inds q ns = .ok (inds1, q1) ∧
        (∃ ext, q1 = q0 ++ ext) ∧ q1.Nodup ∧ (∀ v ∈ q1, v ∈ keysA E) ∧
        keysA inds1 = keysA E ∧
        (∀ b ∈ keysA E, lookupA inds1 b =
          some (unprocCount E (q0.take (lpos + 1)) b)) ∧
        (∀ b ∈ q1, unprocCount E (q0.take (lpos + 1)) b = 0) ∧
        (∀ (j : Nat) (hj : j < q1.length), ∀ a,
          edgeB E a (q1.get ⟨j, hj⟩) = true →
            a ∈ q1.take (min j (lpos + 1))) := by
  intro ns
  induction ns with
  | nil =>
    intro inds q hns hext hnd hsub hkeys h5 h6 h7
    refine ⟨inds, q, processNb_nil inds q, hext, hnd, hsub, hkeys, ?_, ?_, h7⟩
    · intro b hb
      have h := h5 b hb
      simpa using h
    · intro b hb
      have h := h6 b hb
      simpa using h
  | cons b rest ih =>
    intro inds q hns hext hnd hsub hkeys h5 h6 h7
    obtain ⟨ext, rfl⟩ := hext
    have hbE : b ∈ keysA E := hns b (List.mem_cons_self b rest)
    have hbI : b ∈ keysA inds := by
      rw [hkeys]
      exact hbE
    have hlk := h5 b hbE
    have hstep := processNb_cons (q0 ++ ext) rest hlk
    have hdec : (b :: rest).count b + unprocCount E (q0.take (lpos + 1)) b - 1
        = rest.count b + unprocCount E (q0.take (lpos + 1)) b := by
      rw [List.count_cons_self]
      omega
    rw [hdec] at hstep
    have hns' : ∀ x ∈ rest, x ∈ keysA E :=
      fun x hx => hns x (List.mem_cons_of_mem b hx)
    have h5' : ∀ x ∈ keysA E,
        lookupA (setA inds b
            (rest.count b + unprocCount E (q0.take (lpos + 1)) b)) x
          = some (rest.count x + unprocCount E (q0.take (lpos + 1)) x) := by
      intro x hx
      by_cases hxb : x = b
      · subst hxb
        rw [lookupA_setA_self hbI]
      · rw [lookupA_setA_ne inds hxb]
        rw [h5 x hx]
        rw [List.count_cons_of_ne hxb]
    have hkeys' :
        keysA (setA inds b
            (rest.count b + unprocCount E (q0.take (lpos + 1)) b))
          = keysA E := by
      rw [keysA_setA]
      exact hkeys
    by_cases hzero :
        rest.count b + unprocCount E (q0.take (lpos + 1)) b = 0
    · -- the in-degree reaches zero: `b` is pushed
      rw [if_pos hzero] at hstep
      have hbq : b ∉ q0 ++ ext := by
        intro hb
        have h := h6 b hb
        rw [List.count_cons_self] at h
        omega
      have hnd' : ((q0 ++ ext) ++ [b]).Nodup := by
        rw [List.nodup_append]
        refine ⟨hnd, List.nodup_singleton b, ?_⟩
        intro a ha hab
        rw [List.mem_singleton] at hab
        subst hab
        exact hbq ha
      have hsub' : ∀ v ∈ (q0 ++ ext) ++ [b], v ∈ keysA E := by
        intro v hv
        rcases List.mem_append.mp hv with hv | hv
        · exact hsub v hv
        · rw [List.mem_singleton] at hv
          subst hv
          exact hbE
      have h6' : ∀ x ∈ (q0 ++ ext) ++ [b],
          rest.count x + unprocCount E (q0.take (lpos + 1)) x = 0 := by
        intro x hx
        rcases List.mem_append.mp hx with hx | hx
        · have h := h6 x hx
          have hle : rest.count x ≤ (b :: rest).count x := by
            by_cases hxb : x = b
            · subst hxb
              rw [List.count_cons_self]
              omega
            · rw [List.count_cons_of_ne hxb]
          omega
        · rw [List.mem_singleton] at hx
          subst hx
          exact hzero
      have h7' : ∀ (j : Nat) (hj : j < ((q0 ++ ext) ++ [b]).length), ∀ a,
          edgeB E a (((q0 ++ ext) ++ [b]).get ⟨j, hj⟩) = true →
            a ∈ ((q0 ++ ext) ++ [b]).take (min j (lpos + 1)) := by
        intro j hj a hedge
        have hj' : j < (q0 ++ ext).length + 1 := by
          have h := hj
          rw [List.length_append (q0 ++ ext) [b], List.length_singleton] at h
          exact h
        by_cases hjq : j < (q0 ++ ext).length
        · rw [get_append_left [b] hjq] at hedge
          have hmem := h7 j hjq a hedge
          have hmin : min j (lpos + 1) ≤ (q0 ++ ext).length :=
            le_trans (Nat.min_le_left _ _) (le_of_lt hjq)
          rw [List.take_append_of_le_length hmin]
          exact hmem
        · have hjlen : j = (q0 ++ ext).length := by omega
          subst hjlen
          rw [get_append_length (q0 ++ ext) b hj] at hedge
          have hUb : unprocCount E (q0.take (lpos + 1)) b = 0 := by omega
          have haP : a ∈ q0.take (lpos + 1) := mem_of_unprocCount_zero hUb hedge
          have hlen1 : lpos + 1 ≤ (q0 ++ ext).length := by
            rw [List.length_append]
            omega
          have hmin : min (q0 ++ ext).length (lpos + 1) = lpos + 1 :=
            Nat.min_eq_right hlen1
          rw [hmin]
          rw [List.take_append_of_le_length hlen1]
          rw [List.take_append_of_le_length hlpos]
          exact haP
      obtain ⟨inds1, q1, hrun, hconc⟩ :=
        ih (setA inds b (rest.count b + unprocCount E (q0.take (lpos + 1)) b))
          ((q0 ++ ext) ++ [b]) hns'
          ⟨ext ++ [b], by rw [List.append_assoc]⟩
          hnd' hsub' hkeys' h5' h6' h7'
      exact ⟨inds1, q1, hstep.trans hrun, hconc⟩
    · -- the in-degree stays positive: the queue is unchanged
      rw [if_neg hzero] at hstep
      have h6' : ∀ x ∈ q0 ++ ext,
          rest.count x + unprocCount E (q0.take (lpos + 1)) x = 0 := by
        intro x hx
        have h := h6 x hx
        have hle : rest.count x ≤ (b :: rest).count x := by
          by_cases hxb : x = b
          · subst hxb
            rw [List.count_cons_self]
            omega
          · rw [List.count_cons_of_ne hxb]
        omega
      obtain ⟨inds1, q1, hrun, hconc⟩ :=
        ih (setA inds b (rest.count b + unprocCount E (q0.take (lpos + 1)) b))
          (q0 ++ ext) hns' ⟨ext, rfl⟩ hnd hsub hkeys' h5' h6' h7
      exact ⟨inds1, q1, hstep.trans hrun, hconc⟩

theorem nodup_subset_length {q ks : List Str} (hnd : q.Nodup)
    (hsub : ∀ v ∈ q, v ∈ ks) : q.length ≤ ks.length := by
  have h1 : q.toFinset.card = q.length := List.toFinset_card_of_nodup hnd
  have h2 : q.toFinset ⊆ ks.toFinset := by
    intro x hx
    rw [List.mem_toFinset] at hx ⊢
    exact hsub x hx
  have h3 : q.toFinset.card ≤ ks.toFinset.card := Finset.card_le_card h2
  have h4 : ks.toFinset.card ≤ ks.length := ks.toFinset_card_le
  omega

theorem topoLoop_inv (E : List (Str × List Str)) (hndE : (keysA E).Nodup)
    (htgt : ∀ p ∈ E, ∀ x ∈ p.2, x ∈ keysA E) :
    ∀ (fuel : Nat) (inds : List (Str × Nat)) (q : List Str) (lpos : Nat)
      (qf : List Str),
      KahnInv E inds q lpos →
      (keysA E).length ≤ fuel + lpos →
      topoLoop E inds q lpos fuel = .ok qf →
      qf.Nodup ∧ (∀ v ∈ qf, v ∈ keysA E) ∧
        ∀ (j : Nat) (hj : j < qf.length), ∀ a,
          edgeB E a (qf.get ⟨j, hj⟩) = true → a ∈ qf.take j := by
  intro fuel
  induction fuel with
  | zero =>
    intro inds q lpos qf hinv hfuel hrun
    rw [topoLoop_zero] at hrun
    injection hrun with hq
    subst hq
    obtain ⟨hle, hnd, hsub, hkeys, h5, h6, h7⟩ := hinv
    have hqlen : q.length ≤ (keysA E).length := nodup_subset_length hnd hsub
    refine ⟨hnd, hsub, ?_⟩
    intro j hj a hedge
    have h := h7 j hj a hedge
    rwa [Nat.min_eq_left (by omega)] at h
  | succ fuel ih =>
    intro inds q lpos qf hinv hfuel hrun
    obtain ⟨hle, hnd, hsub, hkeys, h5, h6, h7⟩ := hinv
    by_cases hlt : lpos < q.length
    · have hcq : q.get ⟨lpos, hlt⟩ ∈ q := List.get_mem q lpos hlt
      have hcE : q.get ⟨lpos, hlt⟩ ∈ keysA E := hsub _ hcq
      obtain ⟨nsF, hnsF⟩ := lookupA_isSome hcE
      have hcnotin : q.get ⟨lpos, hlt⟩ ∉ q.take lpos := not_mem_take_self hnd hlt
      have htake : q.take (lpos + 1) = q.take lpos ++ [q.get ⟨lpos, hlt⟩] :=
        take_succ_get hlt
      have hnsFsub : ∀ x ∈ nsF, x ∈ keysA E := by
        intro x hx
        exact htgt _ (lookupA_mem hnsF) x hx
      have hmid5 : ∀ x ∈ keysA E, lookupA inds x =
          some (nsF.count x + unprocCount E (q.take (lpos + 1)) x) := by
        intro x hx
        rw [h5 x hx]
        rw [unprocCount_split hndE hnsF hcnotin x]
        rw [htake]
      have hmid6 : ∀ x ∈ q,
          nsF.count x + unprocCount E (q.take (lpos + 1)) x = 0 := by
        intro x hx
        have h6x := h6 x hx
        have h5x := h5 x (hsub x hx)
        have h0 : unprocCount E (q.take lpos) x = 0 :=
          (Option.some.inj (h6x.symm.trans h5x)).symm
        rw [unprocCount_split hndE hnsF hcnotin x] at h0
        rw [htake]
        exact h0
      have hmid7 : ∀ (j : Nat) (hj : j < q.length), ∀ a,
          edgeB E a (q.get ⟨j, hj⟩) = true →
            a ∈ q.take (min j (lpos + 1)) := by
        intro j hj a hedge
        exact mem_take_mono (min_le_min le_rfl (Nat.le_succ lpos))
          (h7 j hj a hedge)
      obtain ⟨inds1, q1, hpn, hext1, hnd1, hsub1, hkeys1, h5', h6', h7'⟩ :=
        processNb_mid E q lpos hlt nsF inds q hnsFsub ⟨[], by simp⟩ hnd hsub
          hkeys hmid5 hmid6 hmid7
      rw [topoLoop_succ_step hlt hnsF hpn] at hrun
      obtain ⟨ext1, hq1⟩ := hext1
      have htq1 : q1.take (lpos + 1) = q.take (lpos + 1) := by
        rw [hq1]
        exact List.take_append_of_le_length hlt
      have hinv1 : KahnInv E inds1 q1 (lpos + 1) := by
        refine ⟨?_, hnd1, hsub1, hkeys1, ?_, ?_, ?_⟩
        · rw [hq1, List.length_append]
          omega
        · intro x hx
          rw [htq1]
          exact h5' x hx
        · intro x hx
          rw [h5' x (hsub1 x hx), h6' x hx]
        · intro j hj a hedge
          exact h7' j hj a hedge
      exact ih inds1 q1 (lpos + 1) qf hinv1 (by omega) hrun
    · rw [topoLoop_succ_ge hlt] at hrun
      injection hrun with hq
      subst hq
      refine ⟨hnd, hsub, ?_⟩
      intro j hj a hedge
      have h := h7 j hj a hedge
      rwa [Nat.min_eq_left (by omega)] at h

theorem topo_sort_props (g : DepGraph) (hWF : g.WF) (qf : List Str)
    (hq : g.topo_sort = .ok qf) :
    qf.Nodup ∧ (∀ v ∈ qf, v ∈ keysA g.edges) ∧
      ∀ (j : Nat) (hj : j < qf.length), ∀ a,
        edgeB g.edges a (qf.get ⟨j, hj⟩) = true → a ∈ qf.take j := by
  obtain ⟨hndE, hkeys, htgt, hdeg⟩ := hWF
  have htgt' : ∀ p ∈ g.edges, ∀ x ∈ p.2, x ∈ keysA g.edges := by
    intro p hp x hx
    rw [← hkeys]
    exact htgt p hp x hx
  have hndI : (keysA g.inds).Nodup := by
    rw [hkeys]
    exact hndE
  unfold DepGraph.topo_sort at hq
  refine topoLoop_inv g.edges hndE htgt'
    (g.inds.length + (g.inds.map (·.2)).sum) g.inds
    ((g.inds.filter fun p => p.2 = 0).map (·.1)) 0 qf ?_ ?_ hq
  · refine ⟨Nat.zero_le _, ?_, ?_, hkeys, ?_, ?_, ?_⟩
    · have hsl :
          List.Sublist ((g.inds.filter fun p => p.2 = 0).map (·.1))
            (g.inds.map (·.1)) :=
        List.Sublist.map _ (List.filter_sublist _)
      exact List.Nodup.sublist hsl hndI
    · intro v hv
      obtain ⟨p, hp, hpv⟩ := List.mem_map.mp hv
      have hpi : p ∈ g.inds := (List.mem_filter.mp hp).1
      rw [← hkeys, ← hpv]
      exact List.mem_map.mpr ⟨p, hpi, rfl⟩
    · intro x hx
      rw [List.take_zero, unprocCount_nil_P]
      have hxI : x ∈ keysA g.inds := by
        rw [hkeys]
        exact hx
      obtain ⟨v, hv⟩ := lookupA_isSome hxI
      have hvc : v = countEdges g.edges x := hdeg (x, v) (lookupA_mem hv)
      rw [hv, hvc]
    · intro x hx
      obtain ⟨p, hp, hpv⟩ := List.mem_map.mp hx
      have hp' := List.mem_filter.mp hp
      have hp2 : p.2 = 0 := of_decide_eq_true hp'.2
      have hmem : (x, p.2) ∈ g.inds := by
        rw [← hpv, Prod.mk.eta]
        exact hp'.1
      rw [mem_lookupA hndI hmem, hp2]
    · intro j hj a hedge
      exfalso
      have hbq := List.get_mem ((g.inds.filter fun p => p.2 = 0).map (·.1)) j hj
      obtain ⟨p, hp, hpv⟩ := List.mem_map.mp hbq
      have hp' := List.mem_filter.mp hp
      have hp2 : p.2 = 0 := of_decide_eq_true hp'.2
      have hdeg' := hdeg p hp'.1
      have hpos := countEdges_pos hedge
      rw [← hpv, ← hdeg', hp2] at hpos
      exact Nat.lt_irrefl 0 hpos
  · have hlen : (keysA g.edges).length = g.inds.length := by
      rw [← hkeys]
      exact List.length_map g.inds (·.1)
    omega

theorem mapM_option_mem {α β : Type} (f : α → Option β) :
    ∀ {l : List α} {out : List β}, l.mapM f = some out →
      ∀ y ∈ out, ∃ x ∈ l, f x = some y := by
  intro l
  induction l with
  | nil =>
    intro out h y hy
    rw [List.mapM_nil] at h
    simp only [Option.pure_def, Option.some.injEq] at h
    subst h
    cases hy
  | cons a t ih =>
    intro out h y hy
    rw [List.mapM_cons] at h
    simp only [Option.pure_def, Option.bind_eq_bind, Option.bind_eq_some,
      Option.some.injEq] at h
    obtain ⟨b, hb, bs, hbs, hout⟩ := h
    subst hout
    rcases List.mem_cons.mp hy with hy | hy
    · subst hy
      exact ⟨a, List.mem_cons_self a t, hb⟩
    · obtain ⟨x, hx, hfx⟩ := ih hbs y hy
      exact ⟨x, List.mem_cons_of_mem a hx, hfx⟩

theorem as_inserted_eq {st : NarState} {i : Nat}
    (h : st.as_inserted = some i) : st = .Inserted i := by
  cases st with
  | Fetching => cases h
  | Fetched nar => cases h
  | Inserted j =>
    unfold NarState.as_inserted at h
    rw [Option.some.inj h]

theorem insert_or_ignore_nar_spec {cat : Catalog} {status : NarStatus}
    {sp : StorePath} {meta : NarMeta} {sr : Bool} {ref_ids : List Nat}
    {nid : Nat} {cat1 : Catalog}
    (h : insert_or_ignore_nar cat status sp meta sr ref_ids = (nid, cat1)) :
    (∃ r ∈ cat1.nars, r.id = nid) ∧
    (∀ r ∈ cat.nars, r ∈ cat1.nars) ∧
    (∀ e ∈ cat1.nar_refs, e ∈ cat.nar_refs ∨ e.2 = nid ∨ e.2 ∈ ref_ids) := by
  unfold insert_or_ignore_nar at h
  split at h
  · rename_i r hf
    injection h with h1 h2
    subst h1
    subst h2
    exact ⟨⟨r, List.mem_of_find?_eq_some hf, rfl⟩, fun r hr => hr,
      fun e he => Or.inl he⟩
  · injection h with h1 h2
    subst h1
    subst h2
    refine ⟨?_, ?_, ?_⟩
    · exact ⟨narRowOf cat.nextNarId status
        { store_path := sp, meta, references := [] },
        List.mem_append.mpr (Or.inr (List.mem_singleton_self _)), rfl⟩
    · intro r hr
      exact List.mem_append.mpr (Or.inl hr)
    · intro e he
      rcases List.mem_append.mp he with he | he
      · exact Or.inl he
      · rcases List.mem_append.mp he with he | he
        · cases sr with
          | false => simp at he
          | true =>
            rw [if_pos rfl, List.mem_singleton] at he
            subst he
            exact Or.inr (Or.inl rfl)
        · obtain ⟨i, hi, hei⟩ := List.mem_map.mp he
          rw [← hei]
          exact Or.inr (Or.inr hi)

theorem saveStep_inv {nars : List (Str × NarState)} {cat : Catalog}
    {hash : Str} {nars1 : List (Str × NarState)} {cat1 : Catalog}
    (hstep : saveStep (nars, cat) hash = .ok (nars1, cat1))
    (hinv : SaveInv nars cat) : SaveInv nars1 cat1 := by
  obtain ⟨hIns, hRef⟩ := hinv
  cases hlk : lookupA nars hash with
  | none =>
    simp only [saveStep, hlk] at hstep
    exact Except.noConfusion hstep
  | some st =>
    cases st with
    | Fetching =>
      simp only [saveStep, hlk] at hstep
      exact Except.noConfusion hstep
    | Inserted i0 =>
      simp only [saveStep, hlk] at hstep
      injection hstep with h'
      injection h' with h1 h2
      subst h1
      subst h2
      exact ⟨hIns, hRef⟩
    | Fetched nar =>
      simp only [saveStep, hlk] at hstep
      split at hstep
      · exact Except.noConfusion hstep
      · rename_i hs hm1
        split at hstep
        · exact Except.noConfusion hstep
        · rename_i ref_ids hm2
          injection hstep with h'
          injection h' with h1 h2
          subst h1
          subst h2
          obtain ⟨hnew, hold, hedges⟩ :=
            insert_or_ignore_nar_spec (rfl :
              insert_or_ignore_nar cat NarStatus.Pending nar.store_path nar.meta
                (hs.any fun x => decide (x = hash)) ref_ids = _)
          have hrefok : ∀ i ∈ ref_ids, ∃ r ∈ cat.nars, r.id = i := by
            intro i hi
            obtain ⟨x, _, hfx⟩ := mapM_option_mem _ hm2 i hi
            rw [Option.bind_eq_some] at hfx
            obtain ⟨st, hlkx, hai⟩ := hfx
            have hst := as_inserted_eq hai
            subst hst
            exact hIns x i (lookupA_mem hlkx)
          constructor
          · intro h i hmem
            rcases mem_setA hmem with hmem | hmem
            · have hi := congrArg Prod.snd hmem
              injection hi with hi
              subst hi
              exact hnew
            · obtain ⟨r, hr, hrid⟩ := hIns h i hmem
              exact ⟨r, hold r hr, hrid⟩
          · intro e he
            rcases hedges e he with he' | he' | he'
            · obtain ⟨r, hr, hrid⟩ := hRef e he'
              exact ⟨r, hold r hr, hrid⟩
            · obtain ⟨r, hr, hrid⟩ := hnew
              exact ⟨r, hr, by rw [hrid, he']⟩
            · obtain ⟨r, hr, hrid⟩ := hrefok e.2 he'
              exact ⟨r, hold r hr, hrid⟩

theorem foldl_saveStep_inv :
    ∀ (l : List Str) (nars : List (Str × NarState)) (cat : Catalog)
      (nars1 : List (Str × NarState)) (cat1 : Catalog),
      l.foldlM saveStep (nars, cat) = .ok (nars1, cat1) →
      SaveInv nars cat → SaveInv nars1 cat1 := by
  intro l
  induction l with
  | nil =>
    intro nars cat nars1 cat1 hrun hinv
    rw [List.foldlM_nil] at hrun
    have hrun' : Except.ok (ε := Unit) (nars, cat) = .ok (nars1, cat1) := hrun
    injection hrun' with h'
    injection h' with h1 h2
    subst h1
    subst h2
    exact hinv
  | cons x t ih =>
    intro nars cat nars1 cat1 hrun hinv
    rw [List.foldlM_cons] at hrun
    cases hstep : saveStep (nars, cat) x with
    | error e =>
      rw [hstep] at hrun
      have hrun' : Except.error (α := List (Str × NarState) × Catalog) e
          = .ok (nars1, cat1) := hrun
      exact Except.noConfusion hrun'
    | ok acc1 =>
      rw [hstep] at hrun
      have hrun' : t.foldlM saveStep acc1 = .ok (nars1, cat1) := hrun
      obtain ⟨nars2, cat2⟩ := acc1
      exact ih nars2 cat2 nars1 cat1 hrun' (saveStep_inv hstep hinv)

theorem save_all_ref_closed {cat : Catalog} {nars : List (Str × NarState)}
    {g : DepGraph} {roots : List Str} {ids : List Nat} {cat1 : Catalog}
    (h : save_all cat nars g roots = .ok (ids, cat1)) (hinv : SaveInv nars cat) :
    ∀ e ∈ cat1.nar_refs, ∃ r ∈ cat1.nars, r.id = e.2 := by
  unfold save_all at h
  split at h
  · exact Except.noConfusion h
  · rename_i q hts
    split at h
    · exact Except.noConfusion h
    · rename_i nars2 cat2 hfold
      split at h
      · exact Except.noConfusion h
      · rename_i ids0 hmap
        injection h with h'
        injection h' with h1 h2
        subst h2
        exact (foldl_saveStep_inv q.reverse nars cat nars2 cat2 hfold hinv).2

/-- C4: for a well-formed dependency graph whose Kahn sort `topo_sort`
returns all nodes, every recorded edge `add_dep(a, b)` with `a ≠ b`
(`a` references `b`) has `a` strictly before `b` in the returned order
`q`, hence `b` strictly before `a` both in the reversed order that
`save_all` walks and in the realized commit order (the reverse order
restricted to the `Fetched` entries it inserts); and a successful
`save_all` commit phase preserves the catalog invariant that every
reference edge's destination is the id of an existing catalog row, so
after the run every reference edge's destination exists in the
catalog. -/
theorem c4_commit_order (g : DepGraph) (q : List Str) (hWF : g.WF)
    (hq : g.topo_sort = .ok q) (hall : q.length = g.inds.length) :
    (∀ a b, edgeB g.edges a b = true → ¬ a = b →
      List.Sublist [a, b] q ∧ List.Sublist [b, a] q.reverse ∧
      ∀ nars : List (Str × NarState),
        ((lookupA nars a).map NarState.isFetched).getD false = true →
        ((lookupA nars b).map NarState.isFetched).getD false = true →
        List.Sublist [b, a] (commitOrder nars q)) ∧
    (∀ (cat : Catalog) (nars : List (Str × NarState)) (roots : List Str)
        (ids : List Nat) (cat1 : Catalog),
      save_all cat nars g roots = .ok (ids, cat1) →
      (∀ h i, (h, NarState.Inserted i) ∈ nars → ∃ r ∈ cat.nars, r.id = i) →
      (∀ e ∈ cat.nar_refs, ∃ r ∈ cat.nars, r.id = e.2) →
      ∀ e ∈ cat1.nar_refs, ∃ r ∈ cat1.nars, r.id = e.2) := by
  obtain ⟨hnd, hsub, hord⟩ := topo_sort_props g hWF q hq
  constructor
  · intro a b hedge hne
    have hbE : b ∈ keysA g.edges := by
      obtain ⟨l, hlk, hbl⟩ := edgeB_exists hedge
      have hb := hWF.2.2.1 _ (lookupA_mem hlk) b hbl
      rw [← hWF.2.1]
      exact hb
    have hlen : (keysA g.edges).length ≤ q.length := by
      have h1 : (keysA g.inds).length = (keysA g.edges).length := by
        rw [hWF.2.1]
      have h2 : (keysA g.inds).length = g.inds.length :=
        List.length_map g.inds (·.1)
      omega
    have hbq : b ∈ q := mem_of_complete hnd hsub hlen hbE
    obtain ⟨⟨j, hj⟩, hjb⟩ := List.mem_iff_get.mp hbq
    have hatake := hord j hj a (by rw [hjb]; exact hedge)
    have hab : List.Sublist [a, b] q := sublist_of_take_mem hj hjb hatake
    refine ⟨hab, by simpa using hab.reverse, ?_⟩
    intro nars hfa hfb
    have hrev : List.Sublist [b, a] q.reverse := by simpa using hab.reverse
    have hfilt := List.Sublist.filter
      (fun h => ((lookupA nars h).map NarState.isFetched).getD false) hrev
    rw [show List.filter
        (fun h => ((lookupA nars h).map NarState.isFetched).getD false) [b, a]
        = [b, a] from by simp [List.filter_cons, hfa, hfb]] at hfilt
    exact hfilt
  · intro cat nars roots ids cat1 hsave hIns hRef
    exact save_all_ref_closed hsave ⟨hIns, hRef⟩

theorem c4_witness :
    diamondG.WF ∧ diamondG.topo_sort = .ok diamondQ ∧
    diamondQ.length = diamondG.inds.length ∧
    edgeB diamondG.edges (str "a") (str "b") = true ∧
    ¬ str "a" = str "b" ∧
    List.Sublist [str "a", str "b"] diamondQ ∧
    List.Sublist [str "b", str "a"] (commitOrder diamondNars diamondQ) := by
  have h1 : diamondG.WF := by decide
  have h2 : diamondG.topo_sort = .ok diamondQ := by decide
  have h3 : diamondQ.length = diamondG.inds.length := by decide
  have h4 : edgeB diamondG.edges (str "a") (str "b") = true := by decide
  have h5 : ¬ str "a" = str "b" := by decide
  obtain ⟨hpart, -⟩ := c4_commit_order diamondG diamondQ h1 h2 h3
  obtain ⟨hsub1, -, hco⟩ := hpart (str "a") (str "b") h4 h5
  exact ⟨h1, h2, h3, h4, h5, hsub1,
    hco diamondNars (by decide) (by decide)⟩

end NixCacheMirror
